import Mathlib

/-!
# Verification of `mapreduce.cc`: the hashed fan-out queue

Shallow embedding of `ConsumerInput<T>` (one lane: a vector guarded by a mutex,
plus a counting semaphore) and `MapOutput<T>` (a vector of lanes addressed by
`std::hash<T>{}(v) % size`), of `Map` and of `Reduce`.

Modelling conventions.

* Every member function is one atomic step on an explicit state: the critical
  sections of the source are already serialised by `mutex_`.
* `std::vector<T>` is a `List T` whose last element is `back()`.
* The semaphore is its counter, a natural number. `acquire()` on a counter of
  zero suspends the caller; with nobody left to release, the call never
  returns, which the model renders as `none`.
* `release()` is modelled as an increment. Its library precondition
  (`update <= max() - counter`) is kept apart, as `ConsumerInput.releasePre`.
* A C++ `int` is an integer kept in the range `-2^31 .. 2^31 - 1` by `wrapInt`,
  which reduces modulo `2^32`: narrowing conversions and `+=` go through it.
* For producer threads running `Emit` at the same time, an `Emit` call is four
  operations (lock, `push_back`, unlock, `release()`), and an interleaving is
  the list of the threads that run them, one operation at a time.
-/

namespace MapReduce

/-! ## ConsumerInput -/

/-- State of one `ConsumerInput<T>`: the vector `inputs_` and the counter of
`semaphore_`. -/
structure ConsumerInput (T : Type) where
  inputs_ : List T
  semaphore_ : Nat
deriving DecidableEq, Repr

/-- Template argument of `std::counting_semaphore<101> semaphore_`. -/
def LeastMaxValue : Nat := 101

namespace ConsumerInput

variable {T : Type}

/-- Constructor: `ConsumerInput() : semaphore_(0) {}`, with an empty vector. -/
def new : ConsumerInput T :=
  { inputs_ := [], semaphore_ := 0 }

/-- Precondition of `semaphore_.release()` with the default update of one:
`1 <= max() - counter`, where `max()` is the declared least maximum value. -/
def releasePre (c : ConsumerInput T) : Prop :=
  c.semaphore_ + 1 ≤ LeastMaxValue

instance (c : ConsumerInput T) : Decidable c.releasePre :=
  inferInstanceAs (Decidable (c.semaphore_ + 1 ≤ LeastMaxValue))

/-- Member `Emit`: `inputs_.push_back(output)` under the lock, then
`semaphore_.release()`. -/
def Emit (c : ConsumerInput T) (output : T) : ConsumerInput T :=
  { inputs_ := c.inputs_ ++ [output], semaphore_ := c.semaphore_ + 1 }

/-- Member `Consume`: `semaphore_.acquire()`, then under the lock either
`{T(), false}` when `inputs_.empty()`, or `back()` / `pop_back()` and
`{output, true}`. The result is `none` when `acquire()` finds the counter at
zero. The body of `while (true)` returns on every path, so it runs once. -/
def Consume [Inhabited T] (c : ConsumerInput T) :
    Option ((T × Bool) × ConsumerInput T) :=
  if c.semaphore_ = 0 then none
  else if h : c.inputs_.isEmpty = true then
    some ((default, false), { inputs_ := c.inputs_, semaphore_ := c.semaphore_ - 1 })
  else
    some ((c.inputs_.getLast (fun e => h (by simp [e])), true),
      { inputs_ := c.inputs_.dropLast, semaphore_ := c.semaphore_ - 1 })

/-- Member `Close`: `semaphore_.release()`. -/
def Close (c : ConsumerInput T) : ConsumerInput T :=
  { inputs_ := c.inputs_, semaphore_ := c.semaphore_ + 1 }

/-- A caller issuing `n` successive `Consume` calls, keeping every result;
`none` as soon as one of the calls would not return. -/
def consumeN [Inhabited T] : Nat → ConsumerInput T →
    Option (List (T × Bool) × ConsumerInput T)
  | 0, c => some ([], c)
  | n + 1, c =>
    match c.Consume with
    | none => none
    | some (r, c1) =>
      match consumeN n c1 with
      | none => none
      | some (rs, c2) => some (r :: rs, c2)

end ConsumerInput

/-! ## Traces of one lane -/

/-- The three operations of a lane, as atomic steps. -/
inductive LaneOp (T : Type) where
  | emit (v : T)
  | close
  | consume
deriving DecidableEq, Repr

/-- A lane together with two history counters: how many `Close` calls were
made, and how many `Consume` calls returned `(_, false)`. -/
structure LaneTrace (T : Type) where
  lane : ConsumerInput T
  closeCalls : Nat
  closuresReported : Nat
deriving DecidableEq, Repr

namespace LaneTrace

variable {T : Type}

/-- Trace of a freshly constructed lane. -/
def start : LaneTrace T :=
  { lane := ConsumerInput.new, closeCalls := 0, closuresReported := 0 }

/-- One atomic step; a `consume` step exists only when `Consume` returns. -/
def step [Inhabited T] (t : LaneTrace T) : LaneOp T → Option (LaneTrace T)
  | .emit v => some { t with lane := t.lane.Emit v }
  | .close => some { t with lane := t.lane.Close, closeCalls := t.closeCalls + 1 }
  | .consume =>
    match t.lane.Consume with
    | none => none
    | some ((_, ok), c) =>
      some { t with
        lane := c
        closuresReported := if ok then t.closuresReported else t.closuresReported + 1 }

/-- Run a sequence of steps from a trace. -/
def run [Inhabited T] : List (LaneOp T) → LaneTrace T → Option (LaneTrace T)
  | [], t => some t
  | op :: ops, t =>
    match t.step op with
    | none => none
    | some t1 => run ops t1

end LaneTrace

/-! ## MapOutput -/

/-- State of one `MapOutput<T>`: the vector `consumers_` of lanes. -/
structure MapOutput (T : Type) where
  consumers_ : List (ConsumerInput T)
deriving DecidableEq, Repr

namespace MapOutput

variable {T : Type}

/-- Constructor `MapOutput(const int consumers)`: a vector of `consumers`
freshly constructed lanes. -/
def new (consumers : Nat) : MapOutput T :=
  { consumers_ := List.replicate consumers ConsumerInput.new }

/-- Member `Emit`: `index = hash % consumers_.size()`, then
`consumers_[index]->Emit(output)`. The parameter `hash` stands for
`std::hash<T>{}`. With no lane at all the remainder is a division by zero,
rendered as `none`. -/
def Emit (hash : T → Nat) (q : MapOutput T) (output : T) : Option (MapOutput T) :=
  if q.consumers_.length = 0 then none
  else
    let index := hash output % q.consumers_.length
    some { consumers_ := q.consumers_.modify (fun c => c.Emit output) index }

/-- Member `Consume`: `consumers_[index]->Consume()`. The result is `none` when
the lane's `Consume` does not return, and when `index` names no lane. -/
def Consume [Inhabited T] (q : MapOutput T) (index : Nat) :
    Option ((T × Bool) × MapOutput T) :=
  match q.consumers_[index]? with
  | none => none
  | some c =>
    match c.Consume with
    | none => none
    | some (r, c1) => some (r, { consumers_ := q.consumers_.set index c1 })

/-- Member `Close`: `consumer->Close()` for every lane. -/
def Close (q : MapOutput T) : MapOutput T :=
  { consumers_ := q.consumers_.map ConsumerInput.Close }

/-- A producer calling `Emit` on each value in order. -/
def emitAll (hash : T → Nat) : List T → MapOutput T → Option (MapOutput T)
  | [], q => some q
  | v :: vs, q =>
    match q.Emit hash v with
    | none => none
    | some q1 => emitAll hash vs q1

/-- Counter of the semaphore of lane `index` (zero when there is no such lane). -/
def signals (q : MapOutput T) (index : Nat) : Nat :=
  match q.consumers_[index]? with
  | none => 0
  | some c => c.semaphore_

/-- The consumer loop of one lane: call `Consume(index)` until it returns
`(_, false)`, collecting the values returned with `true`. At most `fuel` calls
are made. -/
def drainLoop [Inhabited T] : Nat → MapOutput T → Nat → Option (List T × MapOutput T)
  | 0, _, _ => none
  | fuel + 1, q, index =>
    match q.Consume index with
    | none => none
    | some ((v, ok), q1) =>
      if ok then
        match drainLoop fuel q1 index with
        | none => none
        | some (vs, q2) => some (v :: vs, q2)
      else some ([], q1)

/-- The consumer loop of one lane. Each call that returns takes one signal, so
one call more than the number of signals is as far as the loop can get. -/
def drain [Inhabited T] (q : MapOutput T) (index : Nat) : Option (List T × MapOutput T) :=
  drainLoop (q.signals index + 1) q index

/-- One consumer loop per listed lane, one after the other. -/
def drainLanes [Inhabited T] : List Nat → MapOutput T → Option (List (List T) × MapOutput T)
  | [], q => some ([], q)
  | index :: rest, q =>
    match q.drain index with
    | none => none
    | some (vs, q1) =>
      match drainLanes rest q1 with
      | none => none
      | some (rs, q2) => some (vs :: rs, q2)

end MapOutput

/-! ## Map, Reduce and their wiring -/

/-- Value of a C++ `int` (32 bits, two's complement) for the integer `x`: `x`
reduced modulo `2^32` into the range `-2^31 .. 2^31 - 1`. A `size_t` narrowed
to `int` and an `int` sum that leaves the range both end up there. -/
def wrapInt (x : Int) : Int :=
  (x + 2147483648) % 4294967296 - 2147483648

/-- The loop of `Map`: `input.Consume(id)` until `!ok`, inserting every word
into the `std::unordered_set` named `count`. At most `fuel` calls are made. -/
def Map.loop : Nat → Nat → MapOutput String → Finset String →
    Option (MapOutput String × Finset String)
  | 0, _, _, _ => none
  | fuel + 1, id, input, count =>
    match input.Consume id with
    | none => none
    | some ((word, ok), input1) =>
      if !ok then some (input1, count)
      else Map.loop fuel id input1 (insert word count)

/-- Function `Map`: the loop from an empty set, then `output.Emit(count.size())`,
where the `size_t` returned by `size()` is narrowed to the `int` that
`MapOutput<int>::Emit` takes. The parameter `hashInt` stands for
`std::hash<int>{}`. -/
def Map (hashInt : Int → Nat) (id : Nat) (input : MapOutput String)
    (output : MapOutput Int) : Option (MapOutput String × MapOutput Int) :=
  match Map.loop (input.signals id + 1) id input ∅ with
  | none => none
  | some (input1, count) =>
    match output.Emit hashInt (wrapInt (count.card : Int)) with
    | none => none
    | some output1 => some (input1, output1)

/-- The loop of `Reduce`: `input.Consume(0)` until `!ok`, with
`output += count` on `int`, which wraps around when the sum leaves the range
of `int`. At most `fuel` calls are made. -/
def Reduce.loop : Nat → MapOutput Int → Int → Option (MapOutput Int × Int)
  | 0, _, _ => none
  | fuel + 1, input, output =>
    match input.Consume 0 with
    | none => none
    | some ((count, ok), input1) =>
      if !ok then some (input1, output)
      else Reduce.loop fuel input1 (wrapInt (output + count))

/-- Function `Reduce`: `output = 0`, then the loop. -/
def Reduce (input : MapOutput Int) : Option (MapOutput Int × Int) :=
  Reduce.loop (input.signals 0 + 1) input 0

/-- The mappers with the listed ids, run one after the other. -/
def runMappers (hashInt : Int → Nat) :
    List Nat → MapOutput String → MapOutput Int →
    Option (MapOutput String × MapOutput Int)
  | [], input, output => some (input, output)
  | id :: ids, input, output =>
    match Map hashInt id input output with
    | none => none
    | some (input1, output1) => runMappers hashInt ids input1 output1

/-- The stages of `main` in their join order, for `kNumMappers` mappers: the
readers emit `lines` to `file_reader_output`, which is then closed; every
mapper runs; `map_output` (one lane) is closed; `Reduce` runs. The value is
`reducer_output`. -/
def pipeline (hashString : String → Nat) (hashInt : Int → Nat) (kNumMappers : Nat)
    (lines : List String) : Option Int :=
  match (MapOutput.new kNumMappers).emitAll hashString lines with
  | none => none
  | some file_reader_output =>
    match runMappers hashInt (List.range kNumMappers) file_reader_output.Close
        (MapOutput.new 1) with
    | none => none
    | some (_, map_output) =>
      match Reduce map_output.Close with
      | none => none
      | some (_, reducer_output) => some reducer_output

/-! ## Traces of a queue -/

/-- The operations of a queue, as atomic steps. -/
inductive QueueOp (T : Type) where
  | emit (v : T)
  | consume (index : Nat)
  | close
deriving DecidableEq, Repr

/-- One atomic step of a queue; a `consume` step exists only when `Consume`
returns. -/
def MapOutput.step {T : Type} [Inhabited T] (hash : T → Nat) (q : MapOutput T) :
    QueueOp T → Option (MapOutput T)
  | .emit v => q.Emit hash v
  | .consume index =>
    match q.Consume index with
    | none => none
    | some (_, q1) => some q1
  | .close => some q.Close

/-- Run a sequence of steps from a queue state. -/
def MapOutput.run {T : Type} [Inhabited T] (hash : T → Nat) :
    List (QueueOp T) → MapOutput T → Option (MapOutput T)
  | [], q => some q
  | op :: ops, q =>
    match q.step hash op with
    | none => none
    | some q1 => MapOutput.run hash ops q1

/-! ## Producer threads inside Emit -/

/-- Where a producer thread stands inside `ConsumerInput::Emit`: before taking
`mutex_`, before `push_back` (lock held), before the end of the locked scope,
and before `semaphore_.release()`. -/
inductive EmitPc where
  | atLock
  | atPush
  | atUnlock
  | atRelease
deriving DecidableEq, Repr

/-- A producer thread: the values it has still to emit, the first of which is
the argument of the `Emit` call in progress, and where that call stands. -/
structure Producer (T : Type) where
  todo : List T
  pc : EmitPc
deriving DecidableEq, Repr

/-- A queue shared by producer threads: the lanes, the state of the `mutex_`
of every lane (`true` when a thread holds it), and the threads. -/
structure Concurrent (T : Type) where
  queue : MapOutput T
  mutex_ : List Bool
  producers : List (Producer T)
deriving DecidableEq, Repr

namespace Concurrent

variable {T : Type}

/-- A fresh queue of `consumers` lanes and one producer thread per list of
values, each about to start its first `Emit`. -/
def init (consumers : Nat) (values : List (List T)) : Concurrent T :=
  { queue := MapOutput.new consumers
    mutex_ := List.replicate consumers false
    producers := values.map (fun vs => { todo := vs, pc := EmitPc.atLock }) }

/-- One operation of producer thread `p`, following `MapOutput::Emit` and
`ConsumerInput::Emit`: take the lock of the lane `hash % size` (possible only
when it is free), `push_back`, leave the locked scope, `release()`. The result
is `none` when the thread has no operation to run: it has returned, or it waits
for a lock that is held. -/
def step (hash : T → Nat) (st : Concurrent T) (p : Nat) : Option (Concurrent T) :=
  match st.producers[p]? with
  | none => none
  | some pr =>
    match pr.todo with
    | [] => none
    | output :: rest =>
      if st.queue.consumers_.length = 0 then none
      else
        let index := hash output % st.queue.consumers_.length
        match st.queue.consumers_[index]?, st.mutex_[index]? with
        | some c, some held =>
          match pr.pc with
          | EmitPc.atLock =>
            if held then none
            else some { st with
              mutex_ := st.mutex_.set index true
              producers := st.producers.set p { pr with pc := EmitPc.atPush } }
          | EmitPc.atPush =>
            some { st with
              queue := { consumers_ :=
                st.queue.consumers_.set index { c with inputs_ := c.inputs_ ++ [output] } }
              producers := st.producers.set p { pr with pc := EmitPc.atUnlock } }
          | EmitPc.atUnlock =>
            some { st with
              mutex_ := st.mutex_.set index false
              producers := st.producers.set p { pr with pc := EmitPc.atRelease } }
          | EmitPc.atRelease =>
            some { st with
              queue := { consumers_ :=
                st.queue.consumers_.set index { c with semaphore_ := c.semaphore_ + 1 } }
              producers := st.producers.set p { todo := rest, pc := EmitPc.atLock } }
        | _, _ => none

/-- Run an interleaving: the list names, operation by operation, the thread
that runs next. The result is `none` when a named thread has no operation to
run at that point. -/
def run (hash : T → Nat) : List Nat → Concurrent T → Option (Concurrent T)
  | [], st => some st
  | p :: schedule, st =>
    match st.step hash p with
    | none => none
    | some st1 => run hash schedule st1

/-- Every producer thread has returned, so all of them can be joined. -/
def joined (st : Concurrent T) : Prop :=
  ∀ pr ∈ st.producers, pr.todo = []

/-- Signals a thread still owes to lane `i`: one when its value is already in
the store of lane `i` and its `release()` has not run yet. -/
def owes (hash : T → Nat) (N i : Nat) (pr : Producer T) : Nat :=
  match pr.todo, pr.pc with
  | output :: _, EmitPc.atUnlock => if hash output % N = i then 1 else 0
  | output :: _, EmitPc.atRelease => if hash output % N = i then 1 else 0
  | _, _ => 0

/-- Values of a thread that are not yet in any store. -/
def unpushed (pr : Producer T) : List T :=
  match pr.pc with
  | EmitPc.atLock => pr.todo
  | EmitPc.atPush => pr.todo
  | EmitPc.atUnlock => pr.todo.tail
  | EmitPc.atRelease => pr.todo.tail

/-- Operations a thread has still to run. -/
def work (pr : Producer T) : Nat :=
  match pr.pc with
  | EmitPc.atLock => 4 * pr.todo.length
  | EmitPc.atPush => 4 * pr.todo.length - 1
  | EmitPc.atUnlock => 4 * pr.todo.length - 2
  | EmitPc.atRelease => 4 * pr.todo.length - 3

end Concurrent

instance {T : Type} [DecidableEq T] (st : Concurrent T) : Decidable st.joined :=
  inferInstanceAs (Decidable (∀ pr ∈ st.producers, pr.todo = []))

/-! ## Descriptions used in the lemmas -/

/-- The `n` lines that spell the numbers `0 .. n - 1` in binary, lowest digit
first, with `a` for the digit 0 and `b` for the digit 1: `n` distinct strings. -/
def distinctLines (n : Nat) : List String :=
  (List.range n).map
    (fun k => String.mk ((Nat.digits 2 k).map (fun d => if d = 0 then 'a' else 'b')))

/-- Lanes in which every value of `vs` sits in the lane its hash selects, in
emission order, with one signal per value. -/
def routed {T : Type} (hash : T → Nat) (N : Nat) (vs : List T) : List (ConsumerInput T) :=
  (List.range N).map (fun i =>
    ConsumerInput.mk (vs.filter (fun v => decide (hash v % N = i)))
      (vs.filter (fun v => decide (hash v % N = i))).length)

/-- Values waiting in lane `index` (none when there is no such lane). -/
def MapOutput.pending {T : Type} (q : MapOutput T) (index : Nat) : List T :=
  match q.consumers_[index]? with
  | none => []
  | some c => c.inputs_

/-- What holds of a shared queue at every point of an interleaving: `N` lanes
and `N` locks; on every lane the counter plus the signals still owed is the
length of the store; the stores together with the values not yet pushed hold
the values `total`. -/
def Concurrent.Inv {T : Type} (hash : T → Nat) (N : Nat) (total : Multiset T)
    (st : Concurrent T) : Prop :=
  st.queue.consumers_.length = N ∧ st.mutex_.length = N ∧
  (∀ (i : Nat) (c : ConsumerInput T), st.queue.consumers_[i]? = some c →
    c.semaphore_ + (st.producers.map (Concurrent.owes hash N i)).sum = c.inputs_.length) ∧
  (st.queue.consumers_.map (fun c => Multiset.ofList c.inputs_)).sum
    + (st.producers.map (fun pr => Multiset.ofList (Concurrent.unpushed pr))).sum = total

/-- A lock that is held is held by a thread standing between its `lock` and
the end of its locked scope, on the lane of that lock. -/
def Concurrent.Held {T : Type} (hash : T → Nat) (st : Concurrent T) : Prop :=
  ∀ i, st.mutex_[i]? = some true →
    ∃ (p : Nat) (pr : Producer T) (output : T) (rest : List T),
      st.producers[p]? = some pr ∧ pr.todo = output :: rest ∧
      (pr.pc = EmitPc.atPush ∨ pr.pc = EmitPc.atUnlock) ∧
      hash output % st.queue.consumers_.length = i

/-! ## Lemmas on one lane -/

namespace ConsumerInput

variable {T : Type}

theorem Consume_blocked [Inhabited T] (c : ConsumerInput T) (h : c.semaphore_ = 0) :
    c.Consume = none := by
  simp [Consume, h]

theorem Consume_empty [Inhabited T] (s : Nat) :
    (ConsumerInput.mk ([] : List T) (s + 1)).Consume
      = some ((default, false), ConsumerInput.mk [] s) := by
  simp [Consume]

theorem Consume_back [Inhabited T] (xs : List T) (x : T) (s : Nat) :
    (ConsumerInput.mk (xs ++ [x]) (s + 1)).Consume
      = some ((x, true), ConsumerInput.mk xs s) := by
  simp [Consume]

theorem Consume_false_inv [Inhabited T] (c c1 : ConsumerInput T) (v : T)
    (h : c.Consume = some ((v, false), c1)) :
    v = default ∧ c.inputs_ = [] ∧ c1.inputs_ = [] ∧ c1.semaphore_ + 1 = c.semaphore_ := by
  unfold Consume at h
  split_ifs at h with h0 h1
  · simp only [Option.some.injEq, Prod.mk.injEq] at h
    obtain ⟨⟨hv, -⟩, hc⟩ := h
    subst hc
    have h2 : c.inputs_ = [] := by simpa using h1
    refine ⟨hv.symm, h2, h2, ?_⟩
    simp only
    omega
  · simp at h

theorem consumeN_suffix [Inhabited T] (ys xs : List T) (s : Nat) :
    consumeN ys.length (ConsumerInput.mk (xs ++ ys) (s + ys.length))
      = some (ys.reverse.map (fun v => (v, true)), ConsumerInput.mk xs s) := by
  induction ys using List.reverseRecOn with
  | nil => simp [consumeN]
  | append_singleton zs z ih =>
    have e : s + (zs ++ [z]).length = (s + zs.length) + 1 := by
      simp only [List.length_append, List.length_singleton]; omega
    rw [e, ← List.append_assoc]
    simp only [List.length_append, List.length_singleton, consumeN, Consume_back, ih]
    simp

theorem consumeN_items [Inhabited T] (xs : List T) (s : Nat) :
    consumeN xs.length (ConsumerInput.mk xs (xs.length + s))
      = some (xs.reverse.map (fun v => (v, true)), ConsumerInput.mk [] s) := by
  have := consumeN_suffix xs [] s
  rwa [List.nil_append, Nat.add_comm] at this

theorem consumeN_closed [Inhabited T] (n s : Nat) :
    consumeN n (ConsumerInput.mk ([] : List T) s)
      = if n ≤ s then
          some (List.replicate n (default, false), ConsumerInput.mk [] (s - n))
        else none := by
  induction n generalizing s with
  | zero => simp [consumeN]
  | succ n ih =>
    cases s with
    | zero => simp [consumeN, Consume]
    | succ s =>
      simp only [consumeN, Consume_empty, ih]
      by_cases h : n ≤ s
      · simp [h, List.replicate_succ]
      · simp [h]

theorem foldl_Emit (vs : List T) (c : ConsumerInput T) :
    vs.foldl Emit c
      = ConsumerInput.mk (c.inputs_ ++ vs) (c.semaphore_ + vs.length) := by
  induction vs generalizing c with
  | nil => simp
  | cons v vs ih =>
    simp only [List.foldl_cons, ih, Emit, List.append_assoc, List.singleton_append,
      List.length_cons]
    congr 1
    omega

end ConsumerInput

/-! ## Lemmas on routing -/

theorem sum_range_ite_zero (N j c : Nat) (h : N ≤ j) :
    ((List.range N).map (fun i => if j = i then c else 0)).sum = 0 := by
  induction N with
  | zero => simp
  | succ n ih =>
    have hne : j ≠ n := by omega
    simp [List.range_succ, ih (by omega), hne]

theorem sum_range_ite (N j c : Nat) (h : j < N) :
    ((List.range N).map (fun i => if j = i then c else 0)).sum = c := by
  induction N with
  | zero => omega
  | succ n ih =>
    rcases Nat.lt_succ_iff_lt_or_eq.mp h with h1 | h1
    · have hne : j ≠ n := by omega
      simp [List.range_succ, ih h1, hne]
    · subst h1
      simp [List.range_succ, sum_range_ite_zero j j c (le_refl j)]

theorem routed_get {T : Type} (hash : T → Nat) (N : Nat) (vs : List T) (i : Nat)
    (h : i < N) :
    (routed hash N vs)[i]? = some (ConsumerInput.mk
      (vs.filter (fun v => decide (hash v % N = i)))
      (vs.filter (fun v => decide (hash v % N = i))).length) := by
  simp [routed, List.getElem?_map, List.getElem?_range h]

theorem routed_length {T : Type} (hash : T → Nat) (N : Nat) (vs : List T) :
    (routed hash N vs).length = N := by
  simp [routed]

theorem routed_nil {T : Type} (hash : T → Nat) (N : Nat) :
    routed hash N ([] : List T) = List.replicate N ConsumerInput.new := by
  apply List.ext_getElem?
  intro i
  by_cases h : i < N
  · simp [routed_get hash N [] i h, List.getElem?_replicate, h, ConsumerInput.new]
  · simp [routed, List.getElem?_replicate, h]

theorem Emit_routed {T : Type} (hash : T → Nat) (N : Nat) (hN : 0 < N) (acc : List T) (v : T) :
    (MapOutput.mk (routed hash N acc)).Emit hash v
      = some (MapOutput.mk (routed hash N (acc ++ [v]))) := by
  have hN0 : N ≠ 0 := by omega
  simp only [MapOutput.Emit, routed_length, hN0, if_false, Option.some.injEq, MapOutput.mk.injEq]
  apply List.ext_getElem?
  intro i
  rw [List.getElem?_modify]
  by_cases h : i < N
  · rw [routed_get hash N _ i h, routed_get hash N _ i h]
    by_cases e : hash v % N = i
    · simp [e, ConsumerInput.Emit, List.filter_append]
    · simp [e, List.filter_append]
  · have hr : (List.range N)[i]? = none := by simp [List.getElem?_eq_none_iff]; omega
    simp [routed, hr]

theorem emitAll_routed {T : Type} (hash : T → Nat) (N : Nat) (hN : 0 < N) (vs acc : List T) :
    (MapOutput.mk (routed hash N acc)).emitAll hash vs
      = some (MapOutput.mk (routed hash N (acc ++ vs))) := by
  induction vs generalizing acc with
  | nil => simp [MapOutput.emitAll]
  | cons v vs ih =>
    simp only [MapOutput.emitAll, Emit_routed hash N hN acc v, ih]
    simp

theorem emitAll_new {T : Type} (hash : T → Nat) (N : Nat) (hN : 0 < N) (vs : List T) :
    (MapOutput.new N).emitAll hash vs = some (MapOutput.mk (routed hash N vs)) := by
  have := emitAll_routed hash N hN vs []
  rw [routed_nil] at this
  simpa [MapOutput.new] using this

/-! ## Lemmas on the consumer loop -/

theorem MapOutput.Consume_lane {T : Type} [Inhabited T] (q : MapOutput T) (i : Nat)
    (c c1 : ConsumerInput T) (r : T × Bool)
    (hq : q.consumers_[i]? = some c) (hc : c.Consume = some (r, c1)) :
    q.Consume i = some (r, MapOutput.mk (q.consumers_.set i c1)) := by
  simp [MapOutput.Consume, hq, hc]

theorem get_set_same {α : Type} (l : List α) (i : Nat) (a b : α)
    (h : l[i]? = some a) : (l.set i b)[i]? = some b := by
  have hi : i < l.length := by
    by_contra hn
    have : l[i]? = none := by simp [List.getElem?_eq_none_iff]; omega
    simp [this] at h
  simp [List.getElem?_set, hi]

theorem MapOutput.drainLoop_spec {T : Type} [Inhabited T] (i s : Nat) (xs : List T) :
    ∀ (fuel : Nat) (q : MapOutput T),
      q.consumers_[i]? = some (ConsumerInput.mk xs (xs.length + 1 + s)) →
      xs.length + 1 ≤ fuel →
      q.drainLoop fuel i
        = some (xs.reverse, MapOutput.mk (q.consumers_.set i (ConsumerInput.mk [] s))) := by
  induction xs using List.reverseRecOn with
  | nil =>
    intro fuel q hq hf
    obtain ⟨f, rfl⟩ : ∃ f, fuel = f + 1 := ⟨fuel - 1, by simp at hf; omega⟩
    have hc : (ConsumerInput.mk ([] : List T) (([] : List T).length + 1 + s)).Consume
        = some ((default, false), ConsumerInput.mk [] s) := by
      have := ConsumerInput.Consume_empty (T := T) s
      simpa [Nat.add_comm] using this
    simp [MapOutput.drainLoop, MapOutput.Consume_lane q i _ _ _ hq hc]
  | append_singleton ys y ih =>
    intro fuel q hq hf
    obtain ⟨f, rfl⟩ : ∃ f, fuel = f + 1 := ⟨fuel - 1, by simp at hf; omega⟩
    have hc : (ConsumerInput.mk (ys ++ [y]) ((ys ++ [y]).length + 1 + s)).Consume
        = some ((y, true), ConsumerInput.mk ys (ys.length + 1 + s)) := by
      have := ConsumerInput.Consume_back ys y (ys.length + 1 + s)
      simpa [Nat.add_comm, Nat.add_left_comm, Nat.add_assoc] using this
    have hq1 : (q.consumers_.set i (ConsumerInput.mk ys (ys.length + 1 + s)))[i]?
        = some (ConsumerInput.mk ys (ys.length + 1 + s)) := get_set_same _ _ _ _ hq
    have hf1 : ys.length + 1 ≤ f := by simp at hf; omega
    have := ih f (MapOutput.mk (q.consumers_.set i (ConsumerInput.mk ys (ys.length + 1 + s))))
      hq1 hf1
    simp [MapOutput.drainLoop, MapOutput.Consume_lane q i _ _ _ hq hc, this, List.set_set]

theorem MapOutput.drain_spec {T : Type} [Inhabited T] (q : MapOutput T) (i : Nat)
    (c : ConsumerInput T) (hq : q.consumers_[i]? = some c)
    (hc : c.semaphore_ = c.inputs_.length + 1) :
    q.drain i
      = some (c.inputs_.reverse, MapOutput.mk (q.consumers_.set i (ConsumerInput.mk [] 0))) := by
  obtain ⟨xs, s⟩ := c
  simp only at hc
  subst hc
  have hs : q.signals i = xs.length + 1 := by simp [MapOutput.signals, hq]
  exact MapOutput.drainLoop_spec i 0 xs _ q hq (by rw [hs]; omega)

theorem MapOutput.drainLanes_spec {T : Type} [Inhabited T] (is : List Nat) :
    ∀ (q : MapOutput T), is.Nodup →
      (∀ i ∈ is, ∃ c, q.consumers_[i]? = some c ∧ c.semaphore_ = c.inputs_.length + 1) →
      ∃ qf, q.drainLanes is = some (is.map (fun i => (q.pending i).reverse), qf) := by
  induction is with
  | nil => intro q _ _; exact ⟨q, by simp [MapOutput.drainLanes]⟩
  | cons i rest ih =>
    intro q hnd hall
    obtain ⟨c, hq, hc⟩ := hall i (by simp)
    have hni : i ∉ rest := (List.nodup_cons.mp hnd).1
    have hrest : ∀ j ∈ rest,
        (q.consumers_.set i (ConsumerInput.mk [] 0))[j]? = q.consumers_[j]? := by
      intro j hj
      have hne : i ≠ j := fun e => hni (e ▸ hj)
      exact List.getElem?_set_ne hne
    obtain ⟨qf, hqf⟩ := ih (MapOutput.mk (q.consumers_.set i (ConsumerInput.mk [] 0)))
      (List.nodup_cons.mp hnd).2
      (by
        intro j hj
        obtain ⟨cj, h1, h2⟩ := hall j (by simp [hj])
        exact ⟨cj, by simpa [hrest j hj] using h1, h2⟩)
    refine ⟨qf, ?_⟩
    have hm : rest.map (fun j =>
        ((MapOutput.mk (q.consumers_.set i (ConsumerInput.mk [] 0))).pending j).reverse)
        = rest.map (fun j => (q.pending j).reverse) := by
      apply List.map_congr_left
      intro j hj
      simp [MapOutput.pending, hrest j hj]
    rw [hm] at hqf
    have hp : q.pending i = c.inputs_ := by simp [MapOutput.pending, hq]
    simp only [MapOutput.drainLanes, MapOutput.drain_spec q i c hq hc, hqf, List.map_cons, hp]

theorem Close_routed_get {T : Type} (hash : T → Nat) (N : Nat) (vs : List T) (i : Nat)
    (h : i < N) :
    ((MapOutput.mk (routed hash N vs)).Close.consumers_)[i]? = some (ConsumerInput.mk
      (vs.filter (fun v => decide (hash v % N = i)))
      ((vs.filter (fun v => decide (hash v % N = i))).length + 1)) := by
  simp [MapOutput.Close, List.getElem?_map, routed_get hash N vs i h, ConsumerInput.Close]

theorem drainLanes_routed {T : Type} [Inhabited T] (hash : T → Nat) (N : Nat) (vs : List T) :
    ∃ qf, (MapOutput.mk (routed hash N vs)).Close.drainLanes (List.range N)
      = some ((List.range N).map
          (fun i => (vs.filter (fun v => decide (hash v % N = i))).reverse), qf) := by
  obtain ⟨qf, h⟩ := MapOutput.drainLanes_spec (List.range N)
    (MapOutput.mk (routed hash N vs)).Close (List.nodup_range N)
    (by
      intro i hi
      have hi : i < N := List.mem_range.mp hi
      exact ⟨_, Close_routed_get hash N vs i hi, rfl⟩)
  refine ⟨qf, ?_⟩
  rw [h]
  congr 2
  apply List.map_congr_left
  intro i hi
  have hi : i < N := List.mem_range.mp hi
  simp [MapOutput.pending, Close_routed_get hash N vs i hi]

theorem routed_flatten_perm {T : Type} (hash : T → Nat) (N : Nat) (hN : 0 < N) (vs : List T) :
    ((List.range N).map
      (fun i => (vs.filter (fun v => decide (hash v % N = i))).reverse)).flatten.Perm vs := by
  classical
  rw [List.perm_iff_count]
  intro a
  rw [List.count_flatten, List.map_map]
  have hterm : ∀ i, (List.count a ∘
      (fun i => (vs.filter (fun v => decide (hash v % N = i))).reverse)) i
      = if hash a % N = i then List.count a vs else 0 := by
    intro i
    simp only [Function.comp, List.count_reverse]
    by_cases e : hash a % N = i
    · simp [e, List.count_filter]
    · simp only [e, if_false]
      apply List.count_eq_zero_of_not_mem
      simp [List.mem_filter, e]
  rw [show (List.count a ∘
      (fun i => (vs.filter (fun v => decide (hash v % N = i))).reverse))
      = (fun i => if hash a % N = i then List.count a vs else 0) from funext hterm]
  exact sum_range_ite N (hash a % N) _ (Nat.mod_lt _ hN)

/-! ## Lemmas on traces -/

theorem LaneTrace.step_inv {T : Type} [Inhabited T] (t t1 : LaneTrace T) (op : LaneOp T)
    (h : t.step op = some t1)
    (h1 : t.lane.inputs_.length ≤ t.lane.semaphore_)
    (h2 : t.lane.semaphore_ + t.closuresReported = t.lane.inputs_.length + t.closeCalls) :
    t1.lane.inputs_.length ≤ t1.lane.semaphore_ ∧
    t1.lane.semaphore_ + t1.closuresReported = t1.lane.inputs_.length + t1.closeCalls := by
  cases op with
  | emit v =>
    simp only [LaneTrace.step, Option.some.injEq] at h
    subst h
    simp only [ConsumerInput.Emit, List.length_append, List.length_singleton]
    omega
  | close =>
    simp only [LaneTrace.step, Option.some.injEq] at h
    subst h
    simp only [ConsumerInput.Close]
    omega
  | consume =>
    simp only [LaneTrace.step, ConsumerInput.Consume] at h
    split_ifs at h with h0 he
    · simp only [Option.some.injEq] at h
      subst h
      have hl : t.lane.inputs_.length = 0 := by
        have : t.lane.inputs_ = [] := by simpa using he
        simp [this]
      simp only [Bool.false_eq_true, if_false]
      omega
    · simp only [Option.some.injEq] at h
      subst h
      have hl : 0 < t.lane.inputs_.length := by
        rcases List.eq_nil_or_concat t.lane.inputs_ with e | ⟨l, b, e⟩
        · exact absurd (by simp [e]) he
        · simp [e]
      simp only [if_true, List.length_dropLast]
      omega

theorem LaneTrace.run_inv {T : Type} [Inhabited T] (ops : List (LaneOp T)) :
    ∀ (t t1 : LaneTrace T), LaneTrace.run ops t = some t1 →
      t.lane.inputs_.length ≤ t.lane.semaphore_ →
      t.lane.semaphore_ + t.closuresReported = t.lane.inputs_.length + t.closeCalls →
      t1.lane.inputs_.length ≤ t1.lane.semaphore_ ∧
      t1.lane.semaphore_ + t1.closuresReported = t1.lane.inputs_.length + t1.closeCalls := by
  induction ops with
  | nil =>
    intro t t1 h h1 h2
    simp only [LaneTrace.run, Option.some.injEq] at h
    subst h
    exact ⟨h1, h2⟩
  | cons op ops ih =>
    intro t t1 h h1 h2
    simp only [LaneTrace.run] at h
    cases hs : t.step op with
    | none => simp [hs] at h
    | some t2 =>
      simp only [hs] at h
      obtain ⟨h3, h4⟩ := LaneTrace.step_inv t t2 op hs h1 h2
      exact ih t2 t1 h h3 h4

theorem MapOutput.Emit_spec {T : Type} (hash : T → Nat) (q : MapOutput T)
    (hN : 1 ≤ q.consumers_.length) (v : T) :
    ∃ c, q.consumers_[hash v % q.consumers_.length]? = some c ∧
      q.Emit hash v = some (MapOutput.mk
        (q.consumers_.modify (fun c => c.Emit v) (hash v % q.consumers_.length))) ∧
      (q.consumers_.modify (fun c => c.Emit v) (hash v % q.consumers_.length))[
        hash v % q.consumers_.length]? = some (c.Emit v) ∧
      ∀ j, j ≠ hash v % q.consumers_.length →
        (q.consumers_.modify (fun c => c.Emit v) (hash v % q.consumers_.length))[j]?
          = q.consumers_[j]? := by
  have hlt : hash v % q.consumers_.length < q.consumers_.length := Nat.mod_lt _ hN
  have hN0 : q.consumers_.length ≠ 0 := by omega
  refine ⟨q.consumers_[hash v % q.consumers_.length], ?_, ?_, ?_, ?_⟩
  · exact List.getElem?_eq_getElem hlt
  · simp [MapOutput.Emit, hN0]
  · simp [List.getElem?_modify, List.getElem?_eq_getElem hlt]
  · intro j hj
    rw [List.getElem?_modify]
    have hj2 : ¬ hash v % q.consumers_.length = j := fun e => hj e.symm
    simp only [hj2, if_false]
    cases q.consumers_[j]? <;> rfl


/-! ## Lemmas on Map and Reduce -/

theorem Map_loop_eq_drainLoop (fuel : Nat) :
    ∀ (id : Nat) (input : MapOutput String) (count : Finset String),
      Map.loop fuel id input count
        = (input.drainLoop fuel id).map (fun r => (r.2, count ∪ r.1.toFinset)) := by
  induction fuel with
  | zero => intro id input count; simp [Map.loop, MapOutput.drainLoop]
  | succ f ih =>
    intro id input count
    simp only [Map.loop, MapOutput.drainLoop]
    cases hc : input.Consume id with
    | none => simp
    | some r =>
      obtain ⟨⟨word, ok⟩, input1⟩ := r
      cases ok with
      | false => simp
      | true =>
        simp only [Bool.not_true, Bool.false_eq_true, if_false, if_true, ih]
        cases hd : input1.drainLoop f id with
        | none => simp
        | some r2 => simp [Finset.insert_union, Finset.union_insert]

theorem wrapInt_range (x : Int) : -2147483648 ≤ wrapInt x ∧ wrapInt x < 2147483648 := by
  unfold wrapInt
  omega

theorem wrapInt_of_range (x : Int) (h1 : -2147483648 ≤ x) (h2 : x < 2147483648) :
    wrapInt x = x := by
  unfold wrapInt
  omega

theorem wrapInt_add_wrapInt_left (a b : Int) : wrapInt (wrapInt a + b) = wrapInt (a + b) := by
  unfold wrapInt
  omega

theorem wrapInt_add_wrapInt_right (a b : Int) : wrapInt (a + wrapInt b) = wrapInt (a + b) := by
  unfold wrapInt
  omega

theorem wrapInt_foldl (xs : List Int) :
    ∀ output : Int, wrapInt (xs.foldl (fun a c => wrapInt (a + c)) output)
      = wrapInt (output + xs.sum) := by
  induction xs with
  | nil => intro output; simp
  | cons x rest ih =>
    intro output
    simp only [List.foldl_cons, List.sum_cons, ih, wrapInt_add_wrapInt_left, add_assoc]

theorem foldl_wrapInt_zero (xs : List Int) :
    xs.foldl (fun a c => wrapInt (a + c)) 0 = wrapInt xs.sum := by
  have h := wrapInt_foldl xs 0
  rw [zero_add] at h
  rw [← h]
  symm
  rcases List.eq_nil_or_concat xs with e | ⟨l, b, e⟩
  · subst e
    rfl
  · subst e
    rw [List.concat_eq_append, List.foldl_append]
    simp only [List.foldl_cons, List.foldl_nil]
    exact wrapInt_of_range _ (wrapInt_range _).1 (wrapInt_range _).2

theorem wrapInt_sum_map {α : Type} (f : α → Int) (l : List α) :
    wrapInt ((l.map (fun i => wrapInt (f i))).sum) = wrapInt ((l.map f).sum) := by
  induction l with
  | nil => rfl
  | cons x rest ih =>
    simp only [List.map_cons, List.sum_cons]
    rw [wrapInt_add_wrapInt_left, ← wrapInt_add_wrapInt_right, ih, wrapInt_add_wrapInt_right]

theorem Reduce_loop_eq_drainLoop (fuel : Nat) :
    ∀ (input : MapOutput Int) (output : Int),
      Reduce.loop fuel input output
        = (input.drainLoop fuel 0).map
            (fun r => (r.2, r.1.foldl (fun a c => wrapInt (a + c)) output)) := by
  induction fuel with
  | zero => intro input output; simp [Reduce.loop, MapOutput.drainLoop]
  | succ f ih =>
    intro input output
    simp only [Reduce.loop, MapOutput.drainLoop]
    cases hc : input.Consume 0 with
    | none => simp
    | some r =>
      obtain ⟨⟨count, ok⟩, input1⟩ := r
      cases ok with
      | false => simp
      | true =>
        simp only [Bool.not_true, Bool.false_eq_true, if_false, if_true, ih]
        cases hd : input1.drainLoop f 0 with
        | none => simp
        | some r2 => simp

theorem Emit_single_lane {T : Type} (hash : T → Nat) (c : ConsumerInput T) (v : T) :
    (MapOutput.mk [c]).Emit hash v = some (MapOutput.mk [c.Emit v]) := by
  simp [MapOutput.Emit, Nat.mod_one, List.modify]

theorem Map_spec (hashInt : Int → Nat) (id : Nat) (input : MapOutput String)
    (c : ConsumerInput String) (o : ConsumerInput Int)
    (hq : input.consumers_[id]? = some c) (hc : c.semaphore_ = c.inputs_.length + 1) :
    Map hashInt id input (MapOutput.mk [o])
      = some (MapOutput.mk (input.consumers_.set id (ConsumerInput.mk [] 0)),
          MapOutput.mk [o.Emit (wrapInt (c.inputs_.toFinset.card : Int))]) := by
  have hd := MapOutput.drain_spec input id c hq hc
  unfold MapOutput.drain at hd
  simp [Map, Map_loop_eq_drainLoop, hd, Emit_single_lane]

theorem runMappers_spec (hashInt : Int → Nat) (ids : List Nat) :
    ∀ (input : MapOutput String) (o : ConsumerInput Int), ids.Nodup →
      (∀ i ∈ ids, ∃ c, input.consumers_[i]? = some c ∧ c.semaphore_ = c.inputs_.length + 1) →
      ∃ input1, runMappers hashInt ids input (MapOutput.mk [o])
        = some (input1, MapOutput.mk [ConsumerInput.mk
            (o.inputs_ ++ ids.map (fun i => wrapInt ((input.pending i).toFinset.card : Int)))
            (o.semaphore_ + ids.length)]) := by
  induction ids with
  | nil => intro input o _ _; exact ⟨input, by simp [runMappers]⟩
  | cons i rest ih =>
    intro input o hnd hall
    obtain ⟨c, hq, hc⟩ := hall i (by simp)
    have hni : i ∉ rest := (List.nodup_cons.mp hnd).1
    have hrest : ∀ j ∈ rest,
        (input.consumers_.set i (ConsumerInput.mk [] 0))[j]? = input.consumers_[j]? := by
      intro j hj
      have hne : i ≠ j := fun e => hni (e ▸ hj)
      exact List.getElem?_set_ne hne
    obtain ⟨input1, h1⟩ := ih (MapOutput.mk (input.consumers_.set i (ConsumerInput.mk [] 0)))
      (o.Emit (wrapInt (c.inputs_.toFinset.card : Int))) (List.nodup_cons.mp hnd).2
      (by
        intro j hj
        obtain ⟨cj, h1, h2⟩ := hall j (by simp [hj])
        exact ⟨cj, by simpa [hrest j hj] using h1, h2⟩)
    refine ⟨input1, ?_⟩
    have hm : rest.map (fun j => wrapInt (((MapOutput.mk
          (input.consumers_.set i (ConsumerInput.mk [] 0))).pending j).toFinset.card : Int))
        = rest.map (fun j => wrapInt ((input.pending j).toFinset.card : Int)) := by
      apply List.map_congr_left
      intro j hj
      simp [MapOutput.pending, hrest j hj]
    rw [hm] at h1
    have hp : input.pending i = c.inputs_ := by simp [MapOutput.pending, hq]
    simp only [runMappers, Map_spec hashInt i input c o hq hc]
    rw [h1]
    simp only [ConsumerInput.Emit, List.map_cons, hp, List.append_assoc, List.singleton_append,
      List.length_cons]
    have e : o.semaphore_ + 1 + rest.length = o.semaphore_ + (rest.length + 1) := by omega
    rw [e]

theorem Reduce_spec (xs : List Int) :
    ∃ input1, Reduce (MapOutput.mk [ConsumerInput.mk xs (xs.length + 1)])
      = some (input1, wrapInt xs.sum) := by
  have hd := MapOutput.drain_spec (MapOutput.mk [ConsumerInput.mk xs (xs.length + 1)]) 0
    (ConsumerInput.mk xs (xs.length + 1)) (by simp) rfl
  unfold MapOutput.drain at hd
  exact ⟨MapOutput.mk [ConsumerInput.mk [] 0],
    by simp [Reduce, Reduce_loop_eq_drainLoop, hd, foldl_wrapInt_zero, List.sum_reverse]⟩

theorem sum_distinct_per_lane (hash : String → Nat) (N : Nat) (hN : 0 < N)
    (vs : List String) :
    ((List.range N).map (fun i =>
        (((vs.filter (fun v => decide (hash v % N = i))).toFinset.card : Nat) : Int))).sum
      = (vs.toFinset.card : Int) := by
  have h1 : vs.toFinset.card
      = ∑ b ∈ Finset.range N, (Finset.filter (fun a => hash a % N = b) vs.toFinset).card :=
    Finset.card_eq_sum_card_fiberwise (f := fun a => hash a % N)
      (fun x _ => Finset.mem_range.mpr (Nat.mod_lt _ hN))
  have h2 : ∑ b ∈ Finset.range N, (Finset.filter (fun a => hash a % N = b) vs.toFinset).card
      = ((List.range N).map (fun i =>
          (vs.filter (fun v => decide (hash v % N = i))).toFinset.card)).sum := by
    have hr : Finset.range N = (List.range N).toFinset := by ext a; simp
    rw [hr, List.sum_toFinset _ (List.nodup_range N)]
    congr 1
    apply List.map_congr_left
    intro i _
    rw [List.toFinset_filter]
    congr 1
    ext a
    simp
  rw [h1, h2, Nat.cast_list_sum, List.map_map]
  rfl


/-! ## Lemmas on queue traces and on the pipeline -/

theorem LaneTrace.step_closeCalls {T : Type} [Inhabited T] (t t1 : LaneTrace T) (op : LaneOp T)
    (h : t.step op = some t1) (hop : op ≠ LaneOp.close) : t1.closeCalls = t.closeCalls := by
  cases op with
  | emit v =>
    simp only [LaneTrace.step, Option.some.injEq] at h
    subst h
    rfl
  | close => exact absurd rfl hop
  | consume =>
    simp only [LaneTrace.step] at h
    cases hc : t.lane.Consume with
    | none => simp [hc] at h
    | some r =>
      obtain ⟨⟨v, ok⟩, c⟩ := r
      simp only [hc, Option.some.injEq] at h
      subst h
      rfl

theorem LaneTrace.run_closeCalls {T : Type} [Inhabited T] (ops : List (LaneOp T)) :
    ∀ (t t1 : LaneTrace T), LaneTrace.run ops t = some t1 →
      (∀ op ∈ ops, op ≠ LaneOp.close) → t1.closeCalls = t.closeCalls := by
  induction ops with
  | nil =>
    intro t t1 h _
    simp only [LaneTrace.run, Option.some.injEq] at h
    subst h
    rfl
  | cons op ops ih =>
    intro t t1 h hall
    simp only [LaneTrace.run] at h
    cases hs : t.step op with
    | none => simp [hs] at h
    | some t2 =>
      simp only [hs] at h
      rw [ih t2 t1 h (fun o ho => hall o (List.mem_cons_of_mem _ ho)),
        LaneTrace.step_closeCalls t t2 op hs (hall op (List.mem_cons_self _ _))]

theorem ConsumerInput.Consume_of_signal {T : Type} [Inhabited T] (c : ConsumerInput T)
    (h : 1 ≤ c.semaphore_) :
    ∃ r c1, c.Consume = some (r, c1) ∧ c1.semaphore_ + 1 = c.semaphore_ ∧
      (c.inputs_ ≠ [] → r.2 = true ∧ c.inputs_ = c1.inputs_ ++ [r.1]) ∧
      (c.inputs_ = [] → r = (default, false) ∧ c1.inputs_ = []) := by
  obtain ⟨xs, s⟩ := c
  simp only at h
  obtain ⟨s1, rfl⟩ : ∃ s1, s = s1 + 1 := ⟨s - 1, by omega⟩
  rcases List.eq_nil_or_concat xs with e | ⟨l, b, e⟩
  · subst e
    exact ⟨_, _, ConsumerInput.Consume_empty s1, rfl, by simp, by simp⟩
  · rw [List.concat_eq_append] at e
    subst e
    exact ⟨(b, true), ConsumerInput.mk l s1, ConsumerInput.Consume_back l b s1, rfl,
      by simp, by simp⟩

theorem ConsumerInput.Consume_keeps_bound {T : Type} [Inhabited T] (c c1 : ConsumerInput T)
    (r : T × Bool) (h : c.Consume = some (r, c1)) (hb : c.inputs_.length ≤ c.semaphore_) :
    c1.inputs_.length ≤ c1.semaphore_ := by
  have hs : 1 ≤ c.semaphore_ := by
    by_contra h0
    rw [ConsumerInput.Consume_blocked c (by omega)] at h
    exact Option.noConfusion h
  obtain ⟨r1, c2, e1, e2, e3, e4⟩ := ConsumerInput.Consume_of_signal c hs
  rw [h] at e1
  simp only [Option.some.injEq, Prod.mk.injEq] at e1
  obtain ⟨hr, hc⟩ := e1
  subst hr hc
  by_cases he : c.inputs_ = []
  · rw [(e4 he).2]
    simp
  · have hl := congrArg List.length (e3 he).2
    simp only [List.length_append, List.length_singleton] at hl
    omega

theorem MapOutput.step_bound {T : Type} [Inhabited T] (hash : T → Nat) (q q1 : MapOutput T)
    (op : QueueOp T) (h : q.step hash op = some q1)
    (hb : ∀ (i : Nat) (c : ConsumerInput T), q.consumers_[i]? = some c → c.inputs_.length ≤ c.semaphore_) :
    q1.consumers_.length = q.consumers_.length ∧
    ∀ (i : Nat) (c : ConsumerInput T), q1.consumers_[i]? = some c → c.inputs_.length ≤ c.semaphore_ := by
  cases op with
  | emit v =>
    simp only [MapOutput.step, MapOutput.Emit] at h
    split_ifs at h with h0
    simp only [Option.some.injEq] at h
    subst h
    refine ⟨by simp, ?_⟩
    intro i c hc
    simp only [List.getElem?_modify] at hc
    cases hq : q.consumers_[i]? with
    | none => simp [hq] at hc
    | some d =>
      simp only [hq, Option.map_eq_map, Option.map_some', Option.some.injEq] at hc
      have hd := hb i d hq
      subst hc
      split_ifs
      · simp only [ConsumerInput.Emit, List.length_append, List.length_singleton]
        omega
      · exact hd
  | consume index =>
    simp only [MapOutput.step, MapOutput.Consume] at h
    cases hq : q.consumers_[index]? with
    | none => simp [hq] at h
    | some d =>
      cases hd : d.Consume with
      | none => simp [hq, hd] at h
      | some rd =>
        obtain ⟨r, d1⟩ := rd
        simp only [hq, hd, Option.some.injEq] at h
        subst h
        refine ⟨by simp, ?_⟩
        intro i c hc
        simp only [List.getElem?_set] at hc
        split_ifs at hc with e1 e2
        · simp only [Option.some.injEq] at hc
          subst hc
          exact ConsumerInput.Consume_keeps_bound d d1 r hd (hb index d hq)
        · exact hb i c hc
  | close =>
    simp only [MapOutput.step, Option.some.injEq] at h
    subst h
    refine ⟨by simp [MapOutput.Close], ?_⟩
    intro i c hc
    simp only [MapOutput.Close, List.getElem?_map] at hc
    cases hq : q.consumers_[i]? with
    | none => simp [hq] at hc
    | some d =>
      simp only [hq, Option.map_some', Option.some.injEq] at hc
      subst hc
      have := hb i d hq
      simp only [ConsumerInput.Close]
      omega

theorem MapOutput.run_bound {T : Type} [Inhabited T] (hash : T → Nat) (ops : List (QueueOp T)) :
    ∀ (q q1 : MapOutput T), MapOutput.run hash ops q = some q1 →
      (∀ (i : Nat) (c : ConsumerInput T), q.consumers_[i]? = some c → c.inputs_.length ≤ c.semaphore_) →
      q1.consumers_.length = q.consumers_.length ∧
      ∀ (i : Nat) (c : ConsumerInput T), q1.consumers_[i]? = some c → c.inputs_.length ≤ c.semaphore_ := by
  induction ops with
  | nil =>
    intro q q1 h hb
    simp only [MapOutput.run, Option.some.injEq] at h
    subst h
    exact ⟨rfl, hb⟩
  | cons op ops ih =>
    intro q q1 h hb
    simp only [MapOutput.run] at h
    cases hs : q.step hash op with
    | none => simp [hs] at h
    | some q2 =>
      simp only [hs] at h
      obtain ⟨h1, h2⟩ := MapOutput.step_bound hash q q2 op hs hb
      obtain ⟨h3, h4⟩ := ih q2 q1 h h2
      exact ⟨h3.trans h1, h4⟩

theorem MapOutput.drain_spec_ge {T : Type} [Inhabited T] (q : MapOutput T) (i : Nat)
    (c : ConsumerInput T) (hq : q.consumers_[i]? = some c)
    (hc : c.inputs_.length + 1 ≤ c.semaphore_) :
    q.drain i = some (c.inputs_.reverse, MapOutput.mk
      (q.consumers_.set i (ConsumerInput.mk [] (c.semaphore_ - (c.inputs_.length + 1))))) := by
  obtain ⟨xs, s⟩ := c
  simp only at hc
  obtain ⟨s1, rfl⟩ : ∃ s1, s = xs.length + 1 + s1 := ⟨s - (xs.length + 1), by omega⟩
  have hs : q.signals i = xs.length + 1 + s1 := by simp [MapOutput.signals, hq]
  have := MapOutput.drainLoop_spec i s1 xs (q.signals i + 1) q hq (by rw [hs]; omega)
  simpa [MapOutput.drain] using this

theorem pipeline_wraps (hashString : String → Nat) (hashInt : Int → Nat)
    (N : Nat) (hN : 1 ≤ N) (lines : List String) :
    pipeline hashString hashInt N lines = some (wrapInt (lines.toFinset.card : Int)) := by
  have hemit := emitAll_new hashString N hN lines
  obtain ⟨input1, hrun⟩ := runMappers_spec hashInt (List.range N)
    (MapOutput.mk (routed hashString N lines)).Close ConsumerInput.new (List.nodup_range N)
    (by
      intro i hi
      have hi : i < N := List.mem_range.mp hi
      exact ⟨_, Close_routed_get hashString N lines i hi, rfl⟩)
  have hm : (List.range N).map (fun i => wrapInt
        ((((MapOutput.mk (routed hashString N lines)).Close.pending i).toFinset.card : Nat) : Int))
      = (List.range N).map (fun i => wrapInt
        (((lines.filter (fun v => decide (hashString v % N = i))).toFinset.card : Nat) : Int)) := by
    apply List.map_congr_left
    intro i hi
    have hi : i < N := List.mem_range.mp hi
    simp [MapOutput.pending, Close_routed_get hashString N lines i hi]
  rw [hm] at hrun
  obtain ⟨input2, hred⟩ := Reduce_spec ((List.range N).map (fun i => wrapInt
        (((lines.filter (fun v => decide (hashString v % N = i))).toFinset.card : Nat) : Int)))
  have hnew : (MapOutput.new 1 : MapOutput Int) = MapOutput.mk [ConsumerInput.new] := rfl
  simp only [List.length_map, List.length_range] at hred
  simp only [pipeline, hemit]
  rw [hnew, hrun]
  simp only [MapOutput.Close, ConsumerInput.Close, ConsumerInput.new,
    List.map_cons, List.map_nil, List.nil_append, Nat.zero_add, List.length_range]
  rw [hred, wrapInt_sum_map, sum_distinct_per_lane hashString N hN lines]

theorem emitAll_single_lane {T : Type} (hash : T → Nat) (vs : List T) :
    ∀ c : ConsumerInput T,
      (MapOutput.mk [c]).emitAll hash vs = some (MapOutput.mk [vs.foldl ConsumerInput.Emit c]) := by
  induction vs with
  | nil => intro c; simp [MapOutput.emitAll]
  | cons v vs ih =>
    intro c
    simp only [MapOutput.emitAll, Emit_single_lane, List.foldl_cons, ih]

theorem Reduce_after_counts (hashInt : Int → Nat) (counts : List Int) :
    ∃ map_output input1, (MapOutput.new 1).emitAll hashInt counts = some map_output ∧
      Reduce map_output.Close = some (input1, wrapInt counts.sum) := by
  have hnew : (MapOutput.new 1 : MapOutput Int) = MapOutput.mk [ConsumerInput.new] := rfl
  obtain ⟨input1, hred⟩ := Reduce_spec counts
  refine ⟨_, input1, by rw [hnew]; exact emitAll_single_lane hashInt counts ConsumerInput.new, ?_⟩
  rw [ConsumerInput.foldl_Emit]
  simpa [MapOutput.Close, ConsumerInput.Close, ConsumerInput.new] using hred

/-! ## Lemmas on interleaved producers -/

theorem sum_map_set {α M : Type} [AddCommMonoid M] (f : α → M) (l : List α) :
    ∀ (i : Nat) (a b : α), l[i]? = some a →
      ((l.set i b).map f).sum + f a = (l.map f).sum + f b := by
  induction l with
  | nil => intro i a b h; simp at h
  | cons x xs ih =>
    intro i a b h
    cases i with
    | zero =>
      simp only [List.getElem?_cons_zero, Option.some.injEq] at h
      subst h
      simp only [List.set_cons_zero, List.map_cons, List.sum_cons]
      rw [add_right_comm, add_comm (f b)]
      rw [add_right_comm]
    | succ j =>
      simp only [List.getElem?_cons_succ] at h
      simp only [List.set_cons_succ, List.map_cons, List.sum_cons, add_assoc, ih j a b h]

theorem set_same {α : Type} (l : List α) (i : Nat) (a : α) (h : l[i]? = some a) :
    l.set i a = l := by
  apply List.ext_getElem?
  intro j
  rw [List.getElem?_set]
  split_ifs with e1 e2
  · subst e1
    exact h.symm
  · subst e1
    have hn : l[i]? = none := by
      simp [List.getElem?_eq_none_iff]; omega
    rw [hn] at h
    exact Option.noConfusion h
  · rfl

theorem Concurrent.step_shape {T : Type} (hash : T → Nat) (st st1 : Concurrent T) (p : Nat)
    (h : st.step hash p = some st1) :
    ∃ (pr pr1 : Producer T) (index : Nat) (c c1 : ConsumerInput T),
      st.producers[p]? = some pr ∧ st1.producers = st.producers.set p pr1 ∧
      st.queue.consumers_[index]? = some c ∧
      st1.queue.consumers_ = st.queue.consumers_.set index c1 ∧
      st1.mutex_.length = st.mutex_.length ∧
      (∀ i, Concurrent.owes hash st.queue.consumers_.length i pr1
            + (if index = i then c1.semaphore_ + c.inputs_.length else 0)
          = Concurrent.owes hash st.queue.consumers_.length i pr
            + (if index = i then c.semaphore_ + c1.inputs_.length else 0)) ∧
      (Multiset.ofList c1.inputs_ + Multiset.ofList (Concurrent.unpushed pr1)
          = Multiset.ofList c.inputs_ + Multiset.ofList (Concurrent.unpushed pr)) ∧
      Concurrent.work pr1 + 1 = Concurrent.work pr := by
  unfold Concurrent.step at h
  cases hp : st.producers[p]? with
  | none => simp [hp] at h
  | some pr =>
    obtain ⟨todo, pc⟩ := pr
    cases todo with
    | nil => simp [hp] at h
    | cons output rest =>
      simp only [hp] at h
      split_ifs at h with h0
      cases hc : st.queue.consumers_[hash output % st.queue.consumers_.length]? with
      | none => simp [hc] at h
      | some c =>
        cases hm : st.mutex_[hash output % st.queue.consumers_.length]? with
        | none => simp [hc, hm] at h
        | some held =>
          simp only [hc, hm] at h
          cases pc with
          | atLock =>
            simp only at h
            split_ifs at h with hh
            simp only [Option.some.injEq] at h
            subst h
            refine ⟨_, Producer.mk (output :: rest) EmitPc.atPush, _, c, c, rfl, rfl, hc,
              (set_same _ _ _ hc).symm, by simp, ?_, ?_, ?_⟩
            · intro i; simp [Concurrent.owes]
            · simp [Concurrent.unpushed]
            · simp only [Concurrent.work, List.length_cons]; omega
          | atPush =>
            simp only [Option.some.injEq] at h
            subst h
            refine ⟨_, Producer.mk (output :: rest) EmitPc.atUnlock, _, c,
              ConsumerInput.mk (c.inputs_ ++ [output]) c.semaphore_, rfl, rfl, hc, rfl, rfl,
              ?_, ?_, ?_⟩
            · intro i
              simp only [Concurrent.owes, List.length_append, List.length_singleton]
              split_ifs <;> omega
            · simp only [Concurrent.unpushed, List.tail_cons, Multiset.coe_add,
                List.append_assoc, List.singleton_append]
            · simp only [Concurrent.work, List.length_cons]; omega
          | atUnlock =>
            simp only [Option.some.injEq] at h
            subst h
            refine ⟨_, Producer.mk (output :: rest) EmitPc.atRelease, _, c, c, rfl, rfl, hc,
              (set_same _ _ _ hc).symm, by simp, ?_, ?_, ?_⟩
            · intro i; simp [Concurrent.owes]
            · simp [Concurrent.unpushed]
            · simp only [Concurrent.work, List.length_cons]; omega
          | atRelease =>
            simp only [Option.some.injEq] at h
            subst h
            refine ⟨_, Producer.mk rest EmitPc.atLock, _, c,
              ConsumerInput.mk c.inputs_ (c.semaphore_ + 1), rfl, rfl, hc, rfl, rfl,
              ?_, ?_, ?_⟩
            · intro i
              simp only [Concurrent.owes]
              split_ifs <;> omega
            · simp [Concurrent.unpushed]
            · simp only [Concurrent.work, List.length_cons]; omega

theorem Concurrent.step_keeps_Inv {T : Type} (hash : T → Nat) (N : Nat) (total : Multiset T)
    (st st1 : Concurrent T) (p : Nat) (h : st.step hash p = some st1)
    (hinv : Concurrent.Inv hash N total st) : Concurrent.Inv hash N total st1 := by
  obtain ⟨k1, k2, k3, k4⟩ := hinv
  obtain ⟨pr, pr1, index, c, c1, hp, hp1, hc, hc1, hm, f1, f2, -⟩ :=
    Concurrent.step_shape hash st st1 p h
  rw [k1] at f1
  refine ⟨by rw [hc1, List.length_set, k1], by rw [hm, k2], ?_, ?_⟩
  · intro i d hd
    have hsum := sum_map_set (Concurrent.owes hash N i) st.producers p pr pr1 hp
    rw [← hp1] at hsum
    have hf := f1 i
    rw [hc1, List.getElem?_set] at hd
    by_cases e : index = i
    · subst e
      have hold := k3 index c hc
      simp only [if_true] at hd hf
      split_ifs at hd
      simp only [Option.some.injEq] at hd
      subst hd
      omega
    · simp only [e, if_false] at hd hf
      have hold := k3 i d hd
      omega
  · have hL := sum_map_set (fun c : ConsumerInput T => Multiset.ofList c.inputs_)
      st.queue.consumers_ index c c1 hc
    have hP := sum_map_set (fun pr : Producer T => Multiset.ofList (Concurrent.unpushed pr))
      st.producers p pr pr1 hp
    rw [← hc1] at hL
    rw [← hp1] at hP
    simp only at hL hP
    rw [← k4]
    have e : ((st1.queue.consumers_.map (fun c => Multiset.ofList c.inputs_)).sum
          + (st1.producers.map (fun pr => Multiset.ofList (Concurrent.unpushed pr))).sum)
          + (Multiset.ofList c.inputs_ + Multiset.ofList (Concurrent.unpushed pr))
        = ((st.queue.consumers_.map (fun c => Multiset.ofList c.inputs_)).sum
          + (st.producers.map (fun pr => Multiset.ofList (Concurrent.unpushed pr))).sum)
          + (Multiset.ofList c.inputs_ + Multiset.ofList (Concurrent.unpushed pr)) := by
      calc _ = ((st1.queue.consumers_.map (fun c => Multiset.ofList c.inputs_)).sum
                + Multiset.ofList c.inputs_)
              + ((st1.producers.map (fun pr => Multiset.ofList (Concurrent.unpushed pr))).sum
                + Multiset.ofList (Concurrent.unpushed pr)) := by abel
        _ = ((st.queue.consumers_.map (fun c => Multiset.ofList c.inputs_)).sum
                + Multiset.ofList c1.inputs_)
              + ((st.producers.map (fun pr => Multiset.ofList (Concurrent.unpushed pr))).sum
                + Multiset.ofList (Concurrent.unpushed pr1)) := by rw [hL, hP]
        _ = ((st.queue.consumers_.map (fun c => Multiset.ofList c.inputs_)).sum
              + (st.producers.map (fun pr => Multiset.ofList (Concurrent.unpushed pr))).sum)
              + (Multiset.ofList c1.inputs_ + Multiset.ofList (Concurrent.unpushed pr1)) := by
            abel
        _ = _ := by rw [f2]
    exact add_right_cancel e

theorem Concurrent.run_keeps_Inv {T : Type} (hash : T → Nat) (N : Nat) (total : Multiset T)
    (schedule : List Nat) :
    ∀ (st st1 : Concurrent T), Concurrent.run hash schedule st = some st1 →
      Concurrent.Inv hash N total st → Concurrent.Inv hash N total st1 := by
  induction schedule with
  | nil =>
    intro st st1 h hinv
    simp only [Concurrent.run, Option.some.injEq] at h
    subst h
    exact hinv
  | cons p rest ih =>
    intro st st1 h hinv
    simp only [Concurrent.run] at h
    cases hs : st.step hash p with
    | none => simp [hs] at h
    | some st2 =>
      simp only [hs] at h
      exact ih st2 st1 h (Concurrent.step_keeps_Inv hash N total st st2 p hs hinv)

theorem sum_coe_flatten {T : Type} (vss : List (List T)) :
    (vss.map (fun vs => Multiset.ofList vs)).sum = Multiset.ofList vss.flatten := by
  induction vss with
  | nil => rfl
  | cons vs rest ih =>
    simp only [List.map_cons, List.sum_cons, ih, List.flatten_cons, Multiset.coe_add]

theorem Concurrent.init_Inv {T : Type} (hash : T → Nat) (N : Nat) (values : List (List T)) :
    Concurrent.Inv hash N (Multiset.ofList values.flatten) (Concurrent.init N values) := by
  refine ⟨by simp [Concurrent.init, MapOutput.new], by simp [Concurrent.init], ?_, ?_⟩
  · intro i c hc
    simp only [Concurrent.init, MapOutput.new, List.getElem?_replicate] at hc
    split_ifs at hc
    simp only [Option.some.injEq] at hc
    subst hc
    have hz : ((Concurrent.init N values).producers.map (Concurrent.owes hash N i)).sum = 0 := by
      apply List.sum_eq_zero
      intro x hx
      simp only [Concurrent.init, List.map_map, List.mem_map, Function.comp] at hx
      obtain ⟨vs, -, rfl⟩ := hx
      cases vs <;> rfl
    rw [hz]
    rfl
  · have hL : ((Concurrent.init N values).queue.consumers_.map
        (fun c => Multiset.ofList c.inputs_)).sum = (0 : Multiset T) := by
      apply List.sum_eq_zero
      intro x hx
      simp only [Concurrent.init, MapOutput.new, List.map_replicate, List.mem_replicate] at hx
      rw [hx.2]
      rfl
    have hP : (Concurrent.init N values).producers.map
          (fun pr => Multiset.ofList (Concurrent.unpushed pr))
        = values.map (fun vs => Multiset.ofList vs) := by
      simp only [Concurrent.init, List.map_map]
      rfl
    rw [hL, hP, zero_add, sum_coe_flatten]

theorem Concurrent.joined_Inv {T : Type} (hash : T → Nat) (N : Nat) (total : Multiset T)
    (st : Concurrent T) (hinv : Concurrent.Inv hash N total st) (hj : st.joined) :
    st.queue.consumers_.length = N ∧
    (∀ (i : Nat) (c : ConsumerInput T), st.queue.consumers_[i]? = some c →
      c.semaphore_ = c.inputs_.length) ∧
    (st.queue.consumers_.map (fun c => Multiset.ofList c.inputs_)).sum = total := by
  obtain ⟨k1, -, k3, k4⟩ := hinv
  refine ⟨k1, ?_, ?_⟩
  · intro i c hc
    have hz : (st.producers.map (Concurrent.owes hash N i)).sum = 0 := by
      apply List.sum_eq_zero
      intro x hx
      obtain ⟨pr, hpr, rfl⟩ := List.mem_map.mp hx
      have := hj pr hpr
      simp [Concurrent.owes, this]
    have := k3 i c hc
    omega
  · have hz : (st.producers.map (fun pr => Multiset.ofList (Concurrent.unpushed pr))).sum
        = (0 : Multiset T) := by
      apply List.sum_eq_zero
      intro x hx
      obtain ⟨pr, hpr, rfl⟩ := List.mem_map.mp hx
      have := hj pr hpr
      obtain ⟨todo, pc⟩ := pr
      simp only at this
      subst this
      cases pc <;> rfl
    rw [hz, add_zero] at k4
    exact k4

theorem coe_flatten_reverse {T : Type} (l : List (ConsumerInput T)) :
    Multiset.ofList (l.map (fun c => c.inputs_.reverse)).flatten
      = (l.map (fun c => Multiset.ofList c.inputs_)).sum := by
  induction l with
  | nil => rfl
  | cons c rest ih =>
    simp only [List.map_cons, List.flatten_cons, List.sum_cons, ← Multiset.coe_add, ← ih]
    rw [Multiset.coe_reverse]

theorem drainLanes_all {T : Type} [Inhabited T] (q : MapOutput T) (N : Nat)
    (hlen : q.consumers_.length = N)
    (hs : ∀ (i : Nat) (c : ConsumerInput T), q.consumers_[i]? = some c →
      c.semaphore_ = c.inputs_.length) :
    ∃ qf, q.Close.drainLanes (List.range N)
      = some (q.consumers_.map (fun c => c.inputs_.reverse), qf) := by
  have hcl : ∀ i, i < N → q.Close.consumers_[i]?
      = some (ConsumerInput.mk (q.consumers_[i]?.getD ConsumerInput.new).inputs_
          ((q.consumers_[i]?.getD ConsumerInput.new).inputs_.length + 1)) := by
    intro i hi
    have hq : q.consumers_[i]? = some q.consumers_[i] := List.getElem?_eq_getElem (by omega)
    have := hs i _ hq
    simp [MapOutput.Close, List.getElem?_map, hq, ConsumerInput.Close, this]
  obtain ⟨qf, h⟩ := MapOutput.drainLanes_spec (List.range N) q.Close (List.nodup_range N)
    (by
      intro i hi
      exact ⟨_, hcl i (List.mem_range.mp hi), rfl⟩)
  refine ⟨qf, ?_⟩
  rw [h]
  congr 2
  apply List.ext_getElem?
  intro i
  rw [List.getElem?_map, List.getElem?_map]
  by_cases hi : i < N
  · have hq : q.consumers_[i]? = some q.consumers_[i] := List.getElem?_eq_getElem (by omega)
    rw [List.getElem?_range hi]
    simp [MapOutput.pending, hcl i hi, hq]
  · have h1 : (List.range N)[i]? = none := by simp [List.getElem?_eq_none_iff]; omega
    have h2 : q.consumers_[i]? = none := by simp [List.getElem?_eq_none_iff]; omega
    rw [h1, h2]
    rfl

theorem Concurrent.step_cases {T : Type} (hash : T → Nat) (st st1 : Concurrent T) (p : Nat)
    (h : st.step hash p = some st1) :
    ∃ (pc : EmitPc) (pr1 : Producer T) (output : T) (rest : List T),
      st.producers[p]? = some (Producer.mk (output :: rest) pc) ∧
      st1.producers = st.producers.set p pr1 ∧
      st1.queue.consumers_.length = st.queue.consumers_.length ∧
      ((pc = EmitPc.atLock ∧ pr1 = Producer.mk (output :: rest) EmitPc.atPush ∧
          st1.mutex_ = st.mutex_.set (hash output % st.queue.consumers_.length) true) ∨
        (pc = EmitPc.atPush ∧ pr1 = Producer.mk (output :: rest) EmitPc.atUnlock ∧
          st1.mutex_ = st.mutex_) ∨
        (pc = EmitPc.atUnlock ∧ pr1 = Producer.mk (output :: rest) EmitPc.atRelease ∧
          st1.mutex_ = st.mutex_.set (hash output % st.queue.consumers_.length) false) ∨
        (pc = EmitPc.atRelease ∧ pr1 = Producer.mk rest EmitPc.atLock ∧
          st1.mutex_ = st.mutex_)) := by
  unfold Concurrent.step at h
  cases hp : st.producers[p]? with
  | none => simp [hp] at h
  | some pr =>
    obtain ⟨todo, pc⟩ := pr
    cases todo with
    | nil => simp [hp] at h
    | cons output rest =>
      simp only [hp] at h
      split_ifs at h with h0
      cases hc : st.queue.consumers_[hash output % st.queue.consumers_.length]? with
      | none => simp [hc] at h
      | some c =>
        cases hm : st.mutex_[hash output % st.queue.consumers_.length]? with
        | none => simp [hc, hm] at h
        | some held =>
          simp only [hc, hm] at h
          cases pc with
          | atLock =>
            simp only at h
            split_ifs at h with hh
            simp only [Option.some.injEq] at h
            subst h
            exact ⟨_, _, output, rest, rfl, rfl, rfl, Or.inl ⟨rfl, rfl, rfl⟩⟩
          | atPush =>
            simp only [Option.some.injEq] at h
            subst h
            exact ⟨_, _, output, rest, rfl, rfl, by simp, Or.inr (Or.inl ⟨rfl, rfl, rfl⟩)⟩
          | atUnlock =>
            simp only [Option.some.injEq] at h
            subst h
            exact ⟨_, _, output, rest, rfl, rfl, rfl, Or.inr (Or.inr (Or.inl ⟨rfl, rfl, rfl⟩))⟩
          | atRelease =>
            simp only [Option.some.injEq] at h
            subst h
            exact ⟨_, _, output, rest, rfl, rfl, by simp,
              Or.inr (Or.inr (Or.inr ⟨rfl, rfl, rfl⟩))⟩

theorem get_set_other {α : Type} (l : List α) (i j : Nat) (a b : α) (hne : i ≠ j)
    (h : l[j]? = some a) : (l.set i b)[j]? = some a := by
  rw [List.getElem?_set_ne hne]
  exact h

theorem Concurrent.step_Held {T : Type} (hash : T → Nat) (st st1 : Concurrent T) (p : Nat)
    (h : st.step hash p = some st1) (hh : Concurrent.Held hash st) :
    Concurrent.Held hash st1 := by
  obtain ⟨pc, pr1, output, rest, hp, hp1, hlen, hcase⟩ := Concurrent.step_cases hash st st1 p h
  intro i hi
  rw [hlen, hp1]
  rcases hcase with ⟨hpc, hpr1, hm⟩ | ⟨hpc, hpr1, hm⟩ | ⟨hpc, hpr1, hm⟩ | ⟨hpc, hpr1, hm⟩
  · subst hpc hpr1
    rw [hm] at hi
    by_cases e : hash output % st.queue.consumers_.length = i
    · exact ⟨p, _, output, rest, get_set_same _ _ _ _ hp, rfl, Or.inl rfl, e⟩
    · rw [List.getElem?_set_ne e] at hi
      obtain ⟨p2, pr2, o2, r2, g1, g2, g3, g4⟩ := hh i hi
      have hne : p ≠ p2 := by
        intro e2
        subst e2
        rw [hp] at g1
        simp only [Option.some.injEq] at g1
        subst g1
        rcases g3 with g3 | g3 <;> exact EmitPc.noConfusion g3
      exact ⟨p2, pr2, o2, r2, get_set_other _ _ _ _ _ hne g1, g2, g3, g4⟩
  · subst hpc hpr1
    rw [hm] at hi
    obtain ⟨p2, pr2, o2, r2, g1, g2, g3, g4⟩ := hh i hi
    by_cases e2 : p = p2
    · subst e2
      rw [hp] at g1
      simp only [Option.some.injEq] at g1
      subst g1
      simp only [List.cons.injEq] at g2
      obtain ⟨rfl, rfl⟩ := g2
      exact ⟨p, _, output, rest, get_set_same _ _ _ _ hp, rfl, Or.inr rfl, g4⟩
    · exact ⟨p2, pr2, o2, r2, get_set_other _ _ _ _ _ e2 g1, g2, g3, g4⟩
  · subst hpc hpr1
    rw [hm] at hi
    by_cases e : hash output % st.queue.consumers_.length = i
    · rw [List.getElem?_set] at hi
      simp only [e, if_true] at hi
      split_ifs at hi
      simp at hi
    · rw [List.getElem?_set_ne e] at hi
      obtain ⟨p2, pr2, o2, r2, g1, g2, g3, g4⟩ := hh i hi
      have hne : p ≠ p2 := by
        intro e2
        subst e2
        rw [hp] at g1
        simp only [Option.some.injEq] at g1
        subst g1
        simp only [List.cons.injEq] at g2
        obtain ⟨rfl, rfl⟩ := g2
        exact e g4
      exact ⟨p2, pr2, o2, r2, get_set_other _ _ _ _ _ hne g1, g2, g3, g4⟩
  · subst hpc hpr1
    rw [hm] at hi
    obtain ⟨p2, pr2, o2, r2, g1, g2, g3, g4⟩ := hh i hi
    have hne : p ≠ p2 := by
      intro e2
      subst e2
      rw [hp] at g1
      simp only [Option.some.injEq] at g1
      subst g1
      rcases g3 with g3 | g3 <;> exact EmitPc.noConfusion g3
    exact ⟨p2, pr2, o2, r2, get_set_other _ _ _ _ _ hne g1, g2, g3, g4⟩

theorem Concurrent.init_Held {T : Type} (hash : T → Nat) (N : Nat) (values : List (List T)) :
    Concurrent.Held hash (Concurrent.init N values) := by
  intro i hi
  simp only [Concurrent.init, List.getElem?_replicate] at hi
  split_ifs at hi
  simp at hi

theorem Concurrent.step_enabled {T : Type} (hash : T → Nat) (st : Concurrent T) (p : Nat)
    (pr : Producer T) (output : T) (rest : List T)
    (hN : 1 ≤ st.queue.consumers_.length) (hm : st.mutex_.length = st.queue.consumers_.length)
    (hp : st.producers[p]? = some pr) (ht : pr.todo = output :: rest)
    (hfree : pr.pc = EmitPc.atLock →
      st.mutex_[hash output % st.queue.consumers_.length]? = some false) :
    ∃ st1, st.step hash p = some st1 := by
  have hlt : hash output % st.queue.consumers_.length < st.queue.consumers_.length :=
    Nat.mod_lt _ hN
  have hc : st.queue.consumers_[hash output % st.queue.consumers_.length]?
      = some st.queue.consumers_[hash output % st.queue.consumers_.length] :=
    List.getElem?_eq_getElem hlt
  have hlt2 : hash output % st.queue.consumers_.length < st.mutex_.length := by omega
  have hmu : st.mutex_[hash output % st.queue.consumers_.length]?
      = some st.mutex_[hash output % st.queue.consumers_.length] :=
    List.getElem?_eq_getElem hlt2
  have h0 : ¬ st.queue.consumers_.length = 0 := by omega
  obtain ⟨todo, pc⟩ := pr
  simp only at ht hfree
  subst ht
  unfold Concurrent.step
  simp only [hp, h0, if_false, hc]
  cases pc with
  | atLock =>
    rw [hfree rfl]
    exact ⟨_, rfl⟩
  | atPush => rw [hmu]; exact ⟨_, rfl⟩
  | atUnlock => rw [hmu]; exact ⟨_, rfl⟩
  | atRelease => rw [hmu]; exact ⟨_, rfl⟩

theorem Concurrent.progress {T : Type} (hash : T → Nat) (n : Nat) :
    ∀ (st : Concurrent T), (st.producers.map Concurrent.work).sum = n →
      1 ≤ st.queue.consumers_.length → st.mutex_.length = st.queue.consumers_.length →
      Concurrent.Held hash st →
      ∃ schedule st1, Concurrent.run hash schedule st = some st1 ∧ st1.joined := by
  induction n with
  | zero =>
    intro st hw _ _ _
    refine ⟨[], st, rfl, ?_⟩
    intro pr hpr
    have hz : Concurrent.work pr = 0 :=
      List.sum_eq_zero_iff.mp hw _ (List.mem_map_of_mem _ hpr)
    obtain ⟨todo, pc⟩ := pr
    cases todo with
    | nil => rfl
    | cons v rest =>
      exfalso
      cases pc <;> simp only [Concurrent.work, List.length_cons] at hz <;> omega
  | succ n ih =>
    intro st hw hN hm hh
    by_cases hj : st.joined
    · exact ⟨[], st, rfl, hj⟩
    · have hstep : ∃ p st1, st.step hash p = some st1 := by
        unfold Concurrent.joined at hj
        push_neg at hj
        obtain ⟨pr, hpr, hne⟩ := hj
        obtain ⟨p, hp⟩ := List.mem_iff_getElem?.mp hpr
        obtain ⟨output, rest, ht⟩ := List.exists_cons_of_ne_nil hne
        by_cases hA : ∃ (p2 : Nat) (pr2 : Producer T) (o2 : T) (r2 : List T),
            st.producers[p2]? = some pr2 ∧ pr2.todo = o2 :: r2 ∧ pr2.pc ≠ EmitPc.atLock
        · obtain ⟨p2, pr2, o2, r2, g1, g2, g3⟩ := hA
          exact ⟨p2, Concurrent.step_enabled hash st p2 pr2 o2 r2 hN hm g1 g2
            (fun e => absurd e g3)⟩
        · refine ⟨p, Concurrent.step_enabled hash st p pr output rest hN hm hp ht ?_⟩
          intro _
          have hlt : hash output % st.queue.consumers_.length < st.mutex_.length := by
            rw [hm]
            exact Nat.mod_lt _ hN
          have hmu := List.getElem?_eq_getElem hlt
          cases hb : st.mutex_[hash output % st.queue.consumers_.length] with
          | false => rw [hmu, hb]
          | true =>
            exfalso
            rw [hb] at hmu
            obtain ⟨p3, pr3, o3, r3, g1, g2, g3, -⟩ := hh _ hmu
            apply hA
            refine ⟨p3, pr3, o3, r3, g1, g2, ?_⟩
            rcases g3 with g3 | g3 <;> rw [g3] <;> exact fun e => EmitPc.noConfusion e
      obtain ⟨p, st1, hs⟩ := hstep
      obtain ⟨pr, pr1, index, c, c1, hp, hp1, hc, hc1, hm1, -, -, hwk⟩ :=
        Concurrent.step_shape hash st st1 p hs
      have hsum := sum_map_set Concurrent.work st.producers p pr pr1 hp
      rw [← hp1] at hsum
      have hw1 : (st1.producers.map Concurrent.work).sum = n := by omega
      have hlen1 : st1.queue.consumers_.length = st.queue.consumers_.length := by
        rw [hc1, List.length_set]
      obtain ⟨schedule, st2, hr, hj2⟩ := ih st1 hw1 (by omega) (by omega)
        (Concurrent.step_Held hash st st1 p hs hh)
      exact ⟨p :: schedule, st2, by simp [Concurrent.run, hs, hr], hj2⟩

theorem sum_length_const {T : Type} (vss : List (List T)) (m : Nat)
    (h : ∀ vs ∈ vss, vs.length = m) : (vss.map List.length).sum = vss.length * m := by
  induction vss with
  | nil => simp
  | cons vs rest ih =>
    simp only [List.map_cons, List.sum_cons, List.length_cons,
      h vs (List.mem_cons_self _ _), ih (fun x hx => h x (List.mem_cons_of_mem _ hx))]
    rw [Nat.add_mul, Nat.one_mul, Nat.add_comm]

theorem digit_letters_injective :
    ∀ (l1 l2 : List Nat), (∀ d ∈ l1, d < 2) → (∀ d ∈ l2, d < 2) →
      l1.map (fun d => if d = 0 then 'a' else 'b') = l2.map (fun d => if d = 0 then 'a' else 'b') →
      l1 = l2 := by
  intro l1
  induction l1 with
  | nil =>
    intro l2 _ _ h
    cases l2 with
    | nil => rfl
    | cons y ys => simp at h
  | cons x xs ih =>
    intro l2 h1 h2 h
    cases l2 with
    | nil => simp at h
    | cons y ys =>
      simp only [List.map_cons, List.cons.injEq] at h
      have hx : x < 2 := h1 x (List.mem_cons_self _ _)
      have hy : y < 2 := h2 y (List.mem_cons_self _ _)
      have hxy : x = y := by
        by_cases ex : x = 0
        · by_cases ey : y = 0
          · omega
          · have := h.1
            simp [ex, ey] at this
        · by_cases ey : y = 0
          · have := h.1
            simp [ex, ey] at this
          · omega
      rw [hxy, ih ys (fun d hd => h1 d (List.mem_cons_of_mem _ hd))
        (fun d hd => h2 d (List.mem_cons_of_mem _ hd)) h.2]

theorem distinctLines_card (n : Nat) : (distinctLines n).toFinset.card = n := by
  have hinj : Function.Injective
      (fun k => String.mk ((Nat.digits 2 k).map (fun d => if d = 0 then 'a' else 'b'))) := by
    intro k1 k2 h
    have h1 : (Nat.digits 2 k1).map (fun d => if d = 0 then 'a' else 'b')
        = (Nat.digits 2 k2).map (fun d => if d = 0 then 'a' else 'b') :=
      congrArg String.data h
    exact Nat.digits_inj_iff.mp (digit_letters_injective _ _
      (fun d hd => Nat.digits_lt_base (by decide) hd)
      (fun d hd => Nat.digits_lt_base (by decide) hd) h1)
  have hnd : (distinctLines n).Nodup := List.Nodup.map hinj (List.nodup_range n)
  rw [List.toFinset_card_of_nodup hnd, distinctLines, List.length_map, List.length_range]

/-! ## The claims -/

/-- C1 (no loss): on a fresh queue of `N >= 1` lanes, emitting `k` values in
order and closing once, then running the consumer loop of every lane
`0..N-1`, makes every loop end on a `(_, false)` result, and the loops return
`k` values in total. -/
theorem C1_no_loss {T : Type} [Inhabited T] (hash : T → Nat) (N : Nat) (hN : 1 ≤ N)
    (vs : List T) :
    ∃ q results qf,
      (MapOutput.new N).emitAll hash vs = some q ∧
      q.Close.drainLanes (List.range N) = some (results, qf) ∧
      results.length = N ∧
      (results.map List.length).sum = vs.length := by
  obtain ⟨qf, hd⟩ := drainLanes_routed hash N vs
  refine ⟨_, _, qf, emitAll_new hash N hN vs, hd, by simp, ?_⟩
  rw [← List.length_flatten]
  exact (routed_flatten_perm hash N hN vs).length_eq

theorem C1_no_loss_witness :
    1 ≤ 2 ∧
    ∃ q results qf,
      (MapOutput.new 2).emitAll (fun n : Nat => n) [3, 1, 4, 1, 5] = some q ∧
      q.Close.drainLanes (List.range 2) = some (results, qf) ∧
      results.length = 2 ∧
      (results.map List.length).sum = [3, 1, 4, 1, 5].length :=
  ⟨by decide, C1_no_loss (fun n : Nat => n) 2 (by decide) [3, 1, 4, 1, 5]⟩

/-- C2, as stated, fails: on a fresh lane, after one `Close`, the first
`Consume` returns `(T(), false)` and takes the only signal, so the next
`Consume` finds the counter at zero and does not return. -/
theorem C2_second_Consume_blocks :
    (LaneTrace.run [LaneOp.close] (LaneTrace.start : LaneTrace Nat)).map LaneTrace.lane
      = some (ConsumerInput.mk [] 1) ∧
    (ConsumerInput.mk ([] : List Nat) 1).Consume
      = some ((default, false), ConsumerInput.mk [] 0) ∧
    (ConsumerInput.mk ([] : List Nat) 0).semaphore_ = 0 ∧
    (ConsumerInput.mk ([] : List Nat) 0).Consume = none := by
  decide

/-- C2, amended: when a `Consume` call returns `(v, false)`, `v` is the zero
value `T()` and the store is empty; with no `Emit` or `Close` in between, `n`
further `Consume` calls all return `(T(), false)` when at least `n` signals are
left, each call taking one, and otherwise one of them does not return. -/
theorem C2_closure_repeats_while_signals_remain {T : Type} [Inhabited T]
    (c c1 : ConsumerInput T) (v : T) (h : c.Consume = some ((v, false), c1)) (n : Nat) :
    v = default ∧ c1.inputs_ = [] ∧ c1.semaphore_ + 1 = c.semaphore_ ∧
    c1.consumeN n
      = if n ≤ c1.semaphore_ then
          some (List.replicate n (default, false),
            ConsumerInput.mk [] (c1.semaphore_ - n))
        else none := by
  obtain ⟨hv, -, h1, hs⟩ := ConsumerInput.Consume_false_inv c c1 v h
  refine ⟨hv, h1, hs, ?_⟩
  obtain ⟨xs, s⟩ := c1
  simp only at h1
  subst h1
  exact ConsumerInput.consumeN_closed n s

theorem C2_closure_repeats_while_signals_remain_witness :
    (ConsumerInput.mk ([] : List Nat) 2).Consume
      = some ((0, false), ConsumerInput.mk [] 1) ∧
    ((0 : Nat) = default ∧ (ConsumerInput.mk ([] : List Nat) 1).inputs_ = [] ∧
      (ConsumerInput.mk ([] : List Nat) 1).semaphore_ + 1
        = (ConsumerInput.mk ([] : List Nat) 2).semaphore_ ∧
      (ConsumerInput.mk ([] : List Nat) 1).consumeN 2
        = if 2 ≤ (ConsumerInput.mk ([] : List Nat) 1).semaphore_ then
            some (List.replicate 2 (default, false),
              ConsumerInput.mk [] ((ConsumerInput.mk ([] : List Nat) 1).semaphore_ - 2))
          else none) :=
  ⟨by decide,
    C2_closure_repeats_while_signals_remain (ConsumerInput.mk [] 2) (ConsumerInput.mk [] 1) 0
      (by decide) 2⟩

/-- C3 (routing determinism): on a queue of `N >= 1` lanes, `Emit(v)` hands `v`
to the lane of index `hash(v) mod N`, which is below `N`; the index depends on
the value and on `N` only, so equal values emitted on any two queues of `N`
lanes, whatever they hold, go to the lane of the same index. -/
theorem C3_routing_determinism {T : Type} (hash : T → Nat) (N : Nat) (hN : 1 ≤ N)
    (q1 q2 : MapOutput T) (h1 : q1.consumers_.length = N) (h2 : q2.consumers_.length = N)
    (v1 v2 : T) (hv : v1 = v2) :
    hash v1 % N < N ∧ hash v2 % N = hash v1 % N ∧
    (∃ c r, q1.consumers_[hash v1 % N]? = some c ∧ q1.Emit hash v1 = some r ∧
      r.consumers_[hash v1 % N]? = some (c.Emit v1)) ∧
    (∃ c r, q2.consumers_[hash v1 % N]? = some c ∧ q2.Emit hash v2 = some r ∧
      r.consumers_[hash v1 % N]? = some (c.Emit v2)) := by
  subst hv
  refine ⟨Nat.mod_lt _ hN, rfl, ?_, ?_⟩
  · obtain ⟨c, ha, hb, hc, -⟩ := MapOutput.Emit_spec hash q1 (by omega) v1
    rw [h1] at ha hb hc
    exact ⟨c, _, ha, hb, hc⟩
  · obtain ⟨c, ha, hb, hc, -⟩ := MapOutput.Emit_spec hash q2 (by omega) v1
    rw [h2] at ha hb hc
    exact ⟨c, _, ha, hb, hc⟩

theorem C3_routing_determinism_witness :
    1 ≤ 2 ∧ (MapOutput.new 2 : MapOutput Nat).consumers_.length = 2 ∧
    (MapOutput.mk [ConsumerInput.mk [4] 1, ConsumerInput.mk [7, 9] 3]).consumers_.length = 2 ∧
    (5 : Nat) = 5 ∧
    ((fun n : Nat => n) 5 % 2 < 2 ∧ (fun n : Nat => n) 5 % 2 = (fun n : Nat => n) 5 % 2 ∧
    (∃ c r, (MapOutput.new 2 : MapOutput Nat).consumers_[(fun n : Nat => n) 5 % 2]? = some c ∧
      (MapOutput.new 2 : MapOutput Nat).Emit (fun n : Nat => n) 5 = some r ∧
      r.consumers_[(fun n : Nat => n) 5 % 2]? = some (c.Emit 5)) ∧
    (∃ c r, (MapOutput.mk [ConsumerInput.mk [4] 1, ConsumerInput.mk [7, 9] 3]).consumers_[
        (fun n : Nat => n) 5 % 2]? = some c ∧
      (MapOutput.mk [ConsumerInput.mk [4] 1, ConsumerInput.mk [7, 9] 3]).Emit
        (fun n : Nat => n) 5 = some r ∧
      r.consumers_[(fun n : Nat => n) 5 % 2]? = some (c.Emit 5))) :=
  ⟨by decide, by decide, by decide, rfl,
    C3_routing_determinism (fun n : Nat => n) 2 (by decide) (MapOutput.new 2)
      (MapOutput.mk [ConsumerInput.mk [4] 1, ConsumerInput.mk [7, 9] 3])
      (by decide) (by decide) 5 5 rfl⟩

/-- C4 (drain before closure): a lane holding `k` values with exactly `k`
signals, once closed, answers the next `k` `Consume` calls with `(item, true)`,
handing out the pending values, each once, last emitted first, and answers
the call after those with `(T(), false)`. -/
theorem C4_drain_before_closure {T : Type} [Inhabited T] (c : ConsumerInput T)
    (h : c.semaphore_ = c.inputs_.length) :
    ∃ c1, c.Close.consumeN c.inputs_.length
        = some (c.inputs_.reverse.map (fun v => (v, true)), c1) ∧
      (c.inputs_.reverse.map (fun v => (v, true))).length = c.inputs_.length ∧
      (c.inputs_.reverse).Perm c.inputs_ ∧
      c1.Consume = some ((default, false), ConsumerInput.mk [] 0) := by
  obtain ⟨xs, s⟩ := c
  simp only at h
  subst h
  refine ⟨ConsumerInput.mk [] 1, ?_, by simp, List.reverse_perm _, ConsumerInput.Consume_empty 0⟩
  exact ConsumerInput.consumeN_items xs 1

theorem C4_drain_before_closure_witness :
    (ConsumerInput.mk [10, 20, 30] 3).semaphore_ = (ConsumerInput.mk [10, 20, 30] 3).inputs_.length ∧
    ∃ c1, (ConsumerInput.mk [10, 20, 30] 3).Close.consumeN
          (ConsumerInput.mk [10, 20, 30] 3).inputs_.length
        = some ((ConsumerInput.mk [10, 20, 30] 3).inputs_.reverse.map (fun v => (v, true)), c1) ∧
      ((ConsumerInput.mk [10, 20, 30] 3).inputs_.reverse.map (fun v => (v, true))).length
        = (ConsumerInput.mk [10, 20, 30] 3).inputs_.length ∧
      ((ConsumerInput.mk [10, 20, 30] 3).inputs_.reverse).Perm
        (ConsumerInput.mk [10, 20, 30] 3).inputs_ ∧
      c1.Consume = some ((default, false), ConsumerInput.mk [] 0) :=
  ⟨by decide, C4_drain_before_closure (ConsumerInput.mk [10, 20, 30] 3) (by decide)⟩

/-- C5 (exactly-once delivery across lanes): on a fresh queue of `N >= 1`
lanes, after emitting the values and closing, the values returned with
`ok = true` by the consumer loops of all lanes form the multiset of the
emitted values, and no value is returned by two lanes of different index. -/
theorem C5_exactly_once_across_lanes {T : Type} [Inhabited T] (hash : T → Nat) (N : Nat)
    (hN : 1 ≤ N) (vs : List T) :
    ∃ q results qf,
      (MapOutput.new N).emitAll hash vs = some q ∧
      q.Close.drainLanes (List.range N) = some (results, qf) ∧
      results.length = N ∧
      Multiset.ofList results.flatten = Multiset.ofList vs ∧
      ∀ (i j : Nat) (ri rj : List T) (v : T), results[i]? = some ri → results[j]? = some rj →
        v ∈ ri → v ∈ rj → i = j := by
  obtain ⟨qf, hd⟩ := drainLanes_routed hash N vs
  refine ⟨_, _, qf, emitAll_new hash N hN vs, hd, by simp, ?_, ?_⟩
  · exact Multiset.coe_eq_coe.mpr (routed_flatten_perm hash N hN vs)
  · intro i j ri rj v hi hj hvi hvj
    have key : ∀ k rk, ((List.range N).map
        (fun i => (vs.filter (fun v => decide (hash v % N = i))).reverse))[k]? = some rk →
        v ∈ rk → hash v % N = k := by
      intro k rk hk hv
      rw [List.getElem?_map] at hk
      by_cases hkN : k < N
      · rw [List.getElem?_range hkN] at hk
        simp only [Option.map_some', Option.some.injEq] at hk
        subst hk
        simpa using (List.mem_filter.mp (List.mem_reverse.mp hv)).2
      · have : (List.range N)[k]? = none := by simp [List.getElem?_eq_none_iff]; omega
        simp [this] at hk
    rw [← key i ri hi hvi, ← key j rj hj hvj]

theorem C5_exactly_once_across_lanes_witness :
    1 ≤ 2 ∧
    ∃ q results qf,
      (MapOutput.new 2).emitAll (fun s : String => (s.get 0).toNat) ["a", "b", "a", "c"] = some q ∧
      q.Close.drainLanes (List.range 2) = some (results, qf) ∧
      results.length = 2 ∧
      Multiset.ofList results.flatten = Multiset.ofList ["a", "b", "a", "c"] ∧
      ∀ (i j : Nat) (ri rj : List String) (v : String), results[i]? = some ri → results[j]? = some rj →
        v ∈ ri → v ∈ rj → i = j :=
  ⟨by decide,
    C5_exactly_once_across_lanes (fun s : String => (s.get 0).toNat) 2 (by decide)
      ["a", "b", "a", "c"]⟩

/-- C6, as stated, fails: one mapper lane and the `2^31` distinct lines of
`distinctLines`. `Map` counts `2^31` distinct words, the count narrowed to
`int` is `-2^31`, and `Reduce` ends with the output `-2^31`, not the number of
distinct values. -/
theorem C6_count_leaves_int_range :
    (distinctLines 2147483648).toFinset.card = 2147483648 ∧
    pipeline (fun _ => 0) (fun _ => 0) 1 (distinctLines 2147483648)
      = some (-2147483648) := by
  refine ⟨distinctLines_card 2147483648, ?_⟩
  rw [pipeline_wraps (fun _ => 0) (fun _ => 0) 1 (le_refl 1) (distinctLines 2147483648),
    distinctLines_card 2147483648]
  norm_num [wrapInt]

/-- C6, amended: for `N >= 1` mapper lanes and every finite sequence of strings
emitted on a fresh input queue that is then closed, running `Map(i)` for every
lane `i`, closing the one-lane output queue and running `Reduce` returns, and
sets the output of `Reduce` to the number of distinct strings as an `int`:
reduced modulo `2^32` into `-2^31 .. 2^31 - 1`, which is the number of distinct
strings itself whenever there are fewer than `2^31` of them. -/
theorem C6_distinct_count_as_int (hashString : String → Nat) (hashInt : Int → Nat)
    (N : Nat) (hN : 1 ≤ N) (lines : List String) :
    pipeline hashString hashInt N lines = some (wrapInt (lines.toFinset.card : Int)) ∧
    (lines.toFinset.card < 2147483648 →
      pipeline hashString hashInt N lines = some (lines.toFinset.card : Int)) := by
  have h := pipeline_wraps hashString hashInt N hN lines
  refine ⟨h, ?_⟩
  intro hlt
  have h1 : -2147483648 ≤ (lines.toFinset.card : Int) := by omega
  have h2 : (lines.toFinset.card : Int) < 2147483648 := by omega
  rw [h, wrapInt_of_range _ h1 h2]

theorem C6_distinct_count_as_int_witness :
    1 ≤ 1 ∧ ["a", "b", "a", "c"].toFinset.card = 3 ∧
    (pipeline (fun s : String => (s.get 0).toNat) (fun i : Int => i.toNat) 1
        ["a", "b", "a", "c"]
      = some (wrapInt ((["a", "b", "a", "c"].toFinset.card : Nat) : Int)) ∧
    (["a", "b", "a", "c"].toFinset.card < 2147483648 →
      pipeline (fun s : String => (s.get 0).toNat) (fun i : Int => i.toNat) 1
          ["a", "b", "a", "c"]
        = some ((["a", "b", "a", "c"].toFinset.card : Nat) : Int))) :=
  ⟨by decide, by decide,
    C6_distinct_count_as_int (fun s : String => (s.get 0).toNat) (fun i : Int => i.toNat) 1
      (by decide) ["a", "b", "a", "c"]⟩

/-- C7 (wake-signal invariant): in every state reached from a fresh lane by
`Emit`, `Close` and returning `Consume` steps, the counter of the semaphore is
the number of stored values plus the number of `Close` calls not yet answered
by a `Consume` that returned `(_, false)`. -/
theorem C7_wake_signal_invariant {T : Type} [Inhabited T] (ops : List (LaneOp T))
    (t : LaneTrace T) (h : LaneTrace.run ops LaneTrace.start = some t) :
    t.closuresReported ≤ t.closeCalls ∧
    t.lane.semaphore_ = t.lane.inputs_.length + (t.closeCalls - t.closuresReported) := by
  obtain ⟨h1, h2⟩ := LaneTrace.run_inv ops LaneTrace.start t h
    (by simp [LaneTrace.start, ConsumerInput.new])
    (by simp [LaneTrace.start, ConsumerInput.new])
  omega

theorem C7_wake_signal_invariant_witness :
    LaneTrace.run [LaneOp.emit 5, LaneOp.close, LaneOp.emit 6, LaneOp.consume, LaneOp.close,
        LaneOp.consume, LaneOp.consume] LaneTrace.start
      = some (LaneTrace.mk (ConsumerInput.mk ([] : List Nat) 1) 2 1) ∧
    (LaneTrace.mk (ConsumerInput.mk ([] : List Nat) 1) 2 1).closuresReported
      ≤ (LaneTrace.mk (ConsumerInput.mk ([] : List Nat) 1) 2 1).closeCalls ∧
    (LaneTrace.mk (ConsumerInput.mk ([] : List Nat) 1) 2 1).lane.semaphore_
      = (LaneTrace.mk (ConsumerInput.mk ([] : List Nat) 1) 2 1).lane.inputs_.length
        + ((LaneTrace.mk (ConsumerInput.mk ([] : List Nat) 1) 2 1).closeCalls
          - (LaneTrace.mk (ConsumerInput.mk ([] : List Nat) 1) 2 1).closuresReported) :=
  ⟨by decide,
    C7_wake_signal_invariant
      [LaneOp.emit 5, LaneOp.close, LaneOp.emit 6, LaneOp.consume, LaneOp.close,
        LaneOp.consume, LaneOp.consume]
      (LaneTrace.mk (ConsumerInput.mk ([] : List Nat) 1) 2 1) (by decide)⟩

/-- C8, as stated, fails: a producer emits `1` and then `2` to a fresh lane;
the first `Consume` returns `2`, the second returns `1`. -/
theorem C8_later_item_returned_first :
    ((ConsumerInput.new.Emit 1).Emit 2).consumeN 2
      = some ([(2, true), (1, true)], (ConsumerInput.new : ConsumerInput Nat)) := by
  decide

/-- C8, amended: when a producer emits `x`, then the values `zs`, then `y` to a
lane, with no `Consume` in between, the lane's next `Consume` returns `y`, the
following ones return `zs` from the last to the first, and only then a
`Consume` returns `x`: delivery reverses the order of emission. -/
theorem C8_delivery_reverses_emission_order {T : Type} [Inhabited T]
    (c : ConsumerInput T) (x y : T) (zs : List T) :
    ((zs.foldl ConsumerInput.Emit (c.Emit x)).Emit y).Consume
      = some ((y, true), zs.foldl ConsumerInput.Emit (c.Emit x)) ∧
    ((zs.foldl ConsumerInput.Emit (c.Emit x)).Emit y).consumeN (zs.length + 2)
      = some ((y, true) :: (zs.reverse.map (fun v => (v, true)) ++ [(x, true)]), c) := by
  constructor
  · have e1 : (zs.foldl ConsumerInput.Emit (c.Emit x)).Emit y
        = ConsumerInput.mk ((zs.foldl ConsumerInput.Emit (c.Emit x)).inputs_ ++ [y])
            ((zs.foldl ConsumerInput.Emit (c.Emit x)).semaphore_ + 1) := rfl
    rw [e1, ConsumerInput.Consume_back]
  · have h := ConsumerInput.consumeN_suffix (x :: (zs ++ [y])) c.inputs_ c.semaphore_
    have e : ((zs.foldl ConsumerInput.Emit (c.Emit x)).Emit y)
        = ConsumerInput.mk (c.inputs_ ++ x :: (zs ++ [y]))
            (c.semaphore_ + (x :: (zs ++ [y])).length) := by
      rw [ConsumerInput.foldl_Emit]
      simp only [ConsumerInput.Emit, ConsumerInput.mk.injEq]
      refine ⟨by simp, ?_⟩
      simp only [List.length_cons, List.length_append, List.length_singleton, List.length_nil]
      omega
    have l : (x :: (zs ++ [y])).length = zs.length + 2 := by simp
    rw [e, ← l, h]
    simp

/-- C9, on the code: after 101 `Emit` calls on a fresh lane the counter is 101,
the declared maximum, so the `release()` of one more `Emit` is called outside
its precondition. -/
theorem C9_release_precondition_violated :
    ((List.replicate 101 (0 : Nat)).foldl ConsumerInput.Emit ConsumerInput.new).semaphore_ = 101 ∧
    ((List.replicate 101 (0 : Nat)).foldl ConsumerInput.Emit ConsumerInput.new).inputs_.length
      = 101 ∧
    ¬ ((List.replicate 101 (0 : Nat)).foldl ConsumerInput.Emit ConsumerInput.new).releasePre := by
  rw [ConsumerInput.foldl_Emit]
  simp [ConsumerInput.new, ConsumerInput.releasePre, LeastMaxValue]

/-- C10 (Emit touches exactly one lane): on a queue of `N >= 1` lanes, after
`Emit(v)` the lane of index `hash(v) mod N` has `v` appended to its store and
one more signal, the number of lanes is the same, and every other lane has the
store and the counter it had. -/
theorem C10_Emit_touches_one_lane {T : Type} (hash : T → Nat) (q : MapOutput T)
    (hN : 1 ≤ q.consumers_.length) (v : T) :
    ∃ c r, q.consumers_[hash v % q.consumers_.length]? = some c ∧
      q.Emit hash v = some r ∧
      r.consumers_.length = q.consumers_.length ∧
      r.consumers_[hash v % q.consumers_.length]?
        = some (ConsumerInput.mk (c.inputs_ ++ [v]) (c.semaphore_ + 1)) ∧
      ∀ j, j ≠ hash v % q.consumers_.length → r.consumers_[j]? = q.consumers_[j]? := by
  obtain ⟨c, ha, hb, hc, hd⟩ := MapOutput.Emit_spec hash q hN v
  exact ⟨c, _, ha, hb, by simp, hc, hd⟩

theorem C10_Emit_touches_one_lane_witness :
    1 ≤ (MapOutput.mk [ConsumerInput.mk [4] 1, ConsumerInput.mk [7, 9] 3]).consumers_.length ∧
    ∃ c r, (MapOutput.mk [ConsumerInput.mk [4] 1, ConsumerInput.mk [7, 9] 3]).consumers_[
        (fun n : Nat => n) 5 %
          (MapOutput.mk [ConsumerInput.mk [4] 1, ConsumerInput.mk [7, 9] 3]).consumers_.length]?
        = some c ∧
      (MapOutput.mk [ConsumerInput.mk [4] 1, ConsumerInput.mk [7, 9] 3]).Emit
        (fun n : Nat => n) 5 = some r ∧
      r.consumers_.length
        = (MapOutput.mk [ConsumerInput.mk [4] 1, ConsumerInput.mk [7, 9] 3]).consumers_.length ∧
      r.consumers_[(fun n : Nat => n) 5 %
          (MapOutput.mk [ConsumerInput.mk [4] 1, ConsumerInput.mk [7, 9] 3]).consumers_.length]?
        = some (ConsumerInput.mk (c.inputs_ ++ [5]) (c.semaphore_ + 1)) ∧
      ∀ j, j ≠ (fun n : Nat => n) 5 %
          (MapOutput.mk [ConsumerInput.mk [4] 1, ConsumerInput.mk [7, 9] 3]).consumers_.length →
        r.consumers_[j]?
          = (MapOutput.mk [ConsumerInput.mk [4] 1, ConsumerInput.mk [7, 9] 3]).consumers_[j]? :=
  ⟨by decide,
    C10_Emit_touches_one_lane (fun n : Nat => n)
      (MapOutput.mk [ConsumerInput.mk [4] 1, ConsumerInput.mk [7, 9] 3]) (by decide) 5⟩

/-- C11, as stated, fails: on a closed lane a later `Emit(7)` makes the next
`Consume` return `(7, true)`; and a lane that has reported `(_, false)`
returns `(7, true)` after a later `Emit(7)`. -/
theorem C11_Emit_after_Close_is_delivered :
    ((ConsumerInput.new : ConsumerInput Nat).Close.Emit 7).Consume
      = some ((7, true), ConsumerInput.mk [] 1) ∧
    (ConsumerInput.new : ConsumerInput Nat).Close.Consume
      = some ((default, false), ConsumerInput.new) ∧
    ((ConsumerInput.new : ConsumerInput Nat).Emit 7).Consume
      = some ((7, true), ConsumerInput.new) := by
  decide

/-- C11, amended: `Close` does not stop a lane from accepting values. For
every lane state and every value `v`, `Emit(v)` after `Close` appends `v` and
adds a signal, and the next `Consume` returns `(v, true)`; and after a
`Consume` that returned `(_, false)`, a later `Emit(v)` makes the next
`Consume` return `(v, true)`. Items queued before `Close` are still drained
before closure is reported: a `Consume` returns `(_, false)` only on an empty
store, and on a lane with at least as many signals as stored values (every
reachable lane) the `Consume` calls after `Close` return all the stored values
with `true`, and only the call after them returns `(T(), false)`. -/
theorem C11_closed_lane_still_accepts {T : Type} [Inhabited T] (c : ConsumerInput T) (v : T) :
    (c.Close.Emit v).inputs_ = c.inputs_ ++ [v] ∧
    (c.Close.Emit v).semaphore_ = c.semaphore_ + 2 ∧
    (c.Close.Emit v).Consume = some ((v, true), c.Close) ∧
    (∀ (w : T) (c1 : ConsumerInput T), c.Consume = some ((w, false), c1) →
      c.inputs_ = [] ∧ (c1.Emit v).Consume = some ((v, true), c1)) ∧
    (c.inputs_.length ≤ c.semaphore_ →
      ∃ c1 c2, c.Close.consumeN c.inputs_.length
          = some (c.inputs_.reverse.map (fun x => (x, true)), c1) ∧
        c1.Consume = some ((default, false), c2)) := by
  refine ⟨rfl, rfl, ?_, ?_, ?_⟩
  · exact ConsumerInput.Consume_back c.inputs_ v (c.semaphore_ + 1)
  · intro w c1 h
    exact ⟨(ConsumerInput.Consume_false_inv c c1 w h).2.1,
      ConsumerInput.Consume_back c1.inputs_ v c1.semaphore_⟩
  · intro hle
    obtain ⟨xs, s⟩ := c
    simp only at hle
    obtain ⟨s1, rfl⟩ : ∃ s1, s = xs.length + s1 := ⟨s - xs.length, by omega⟩
    refine ⟨ConsumerInput.mk [] (s1 + 1), ConsumerInput.mk [] s1, ?_,
      ConsumerInput.Consume_empty s1⟩
    have := ConsumerInput.consumeN_items xs (s1 + 1)
    simpa [ConsumerInput.Close, Nat.add_assoc] using this

theorem C11_closed_lane_still_accepts_witness :
    (ConsumerInput.mk ([] : List Nat) 1).Consume
      = some ((0, false), ConsumerInput.mk [] 0) ∧
    (ConsumerInput.mk [5, 6] 2).inputs_.length ≤ (ConsumerInput.mk [5, 6] 2).semaphore_ ∧
    (((ConsumerInput.mk ([] : List Nat) 1).Close.Emit 7).inputs_
      = (ConsumerInput.mk ([] : List Nat) 1).inputs_ ++ [7] ∧
    ((ConsumerInput.mk ([] : List Nat) 1).Close.Emit 7).semaphore_
      = (ConsumerInput.mk ([] : List Nat) 1).semaphore_ + 2 ∧
    ((ConsumerInput.mk ([] : List Nat) 1).Close.Emit 7).Consume
      = some ((7, true), (ConsumerInput.mk ([] : List Nat) 1).Close) ∧
    (∀ (w : Nat) (c1 : ConsumerInput Nat),
      (ConsumerInput.mk ([] : List Nat) 1).Consume = some ((w, false), c1) →
      (ConsumerInput.mk ([] : List Nat) 1).inputs_ = [] ∧
      (c1.Emit 7).Consume = some ((7, true), c1)) ∧
    ((ConsumerInput.mk ([] : List Nat) 1).inputs_.length
        ≤ (ConsumerInput.mk ([] : List Nat) 1).semaphore_ →
      ∃ c1 c2, (ConsumerInput.mk ([] : List Nat) 1).Close.consumeN
            (ConsumerInput.mk ([] : List Nat) 1).inputs_.length
          = some ((ConsumerInput.mk ([] : List Nat) 1).inputs_.reverse.map
              (fun x => (x, true)), c1) ∧
        c1.Consume = some ((default, false), c2))) ∧
    ((ConsumerInput.mk [5, 6] 2).inputs_.length ≤ (ConsumerInput.mk [5, 6] 2).semaphore_ →
      ∃ c1 c2, (ConsumerInput.mk [5, 6] 2).Close.consumeN
            (ConsumerInput.mk [5, 6] 2).inputs_.length
          = some ((ConsumerInput.mk [5, 6] 2).inputs_.reverse.map (fun x => (x, true)), c1) ∧
        c1.Consume = some ((default, false), c2)) :=
  ⟨by decide, by decide,
    C11_closed_lane_still_accepts (ConsumerInput.mk ([] : List Nat) 1) 7,
    (C11_closed_lane_still_accepts (ConsumerInput.mk [5, 6] 2) 7).2.2.2.2⟩

/-- C12 (Close closes every lane): in every state that a queue of `N` lanes
(`N >= 1` included) reaches from its construction by `Emit`, `Consume` and `Close` steps,
`Close` keeps the `N` lanes, adds exactly one signal to each and changes no
store; then on every lane `i` the next `Consume` calls return the pending
values, and once these are drained `Consume(i)` returns `(T(), false)`. -/
theorem C12_Close_closes_every_lane {T : Type} [Inhabited T] (hash : T → Nat) (N : Nat)
    (ops : List (QueueOp T)) (q : MapOutput T)
    (h : MapOutput.run hash ops (MapOutput.new N) = some q) :
    q.consumers_.length = N ∧ q.Close.consumers_.length = N ∧
    ∀ i, i < N → ∃ c, q.consumers_[i]? = some c ∧
      q.Close.consumers_[i]? = some (ConsumerInput.mk c.inputs_ (c.semaphore_ + 1)) ∧
      (∃ c1 c2, c.Close.consumeN c.inputs_.length
          = some (c.inputs_.reverse.map (fun v => (v, true)), c1) ∧
        c1.Consume = some ((default, false), c2)) ∧
      ∃ qf, q.Close.drain i = some (c.inputs_.reverse, qf) := by
  obtain ⟨hlen, hb⟩ := MapOutput.run_bound hash ops (MapOutput.new N) q h
    (by
      intro i c hc
      simp only [MapOutput.new, List.getElem?_replicate] at hc
      split_ifs at hc
      simp only [Option.some.injEq] at hc
      subst hc
      simp [ConsumerInput.new])
  have hlen : q.consumers_.length = N := by simpa [MapOutput.new] using hlen
  refine ⟨hlen, by simp [MapOutput.Close, hlen], ?_⟩
  intro i hi
  have hq : q.consumers_[i]? = some q.consumers_[i] := List.getElem?_eq_getElem (by omega)
  have hbi := hb i _ hq
  have hcl : q.Close.consumers_[i]?
      = some (ConsumerInput.mk (q.consumers_[i]).inputs_ ((q.consumers_[i]).semaphore_ + 1)) := by
    simp [MapOutput.Close, List.getElem?_map, hq, ConsumerInput.Close]
  refine ⟨q.consumers_[i], hq, hcl, ?_, ?_⟩
  · obtain ⟨s1, hs1⟩ : ∃ s1, (q.consumers_[i]).semaphore_ = (q.consumers_[i]).inputs_.length + s1 :=
      ⟨(q.consumers_[i]).semaphore_ - (q.consumers_[i]).inputs_.length, by omega⟩
    refine ⟨ConsumerInput.mk [] (s1 + 1), ConsumerInput.mk [] s1, ?_,
      ConsumerInput.Consume_empty s1⟩
    have := ConsumerInput.consumeN_items (q.consumers_[i]).inputs_ (s1 + 1)
    simpa [ConsumerInput.Close, hs1, Nat.add_assoc] using this
  · exact ⟨_, MapOutput.drain_spec_ge q.Close i
      (ConsumerInput.mk (q.consumers_[i]).inputs_ ((q.consumers_[i]).semaphore_ + 1)) hcl
      (by simp only; omega)⟩

theorem C12_Close_closes_every_lane_witness :
    MapOutput.run (fun n : Nat => n)
        [QueueOp.emit 3, QueueOp.emit 4, QueueOp.emit 5, QueueOp.consume 1] (MapOutput.new 2)
      = some (MapOutput.mk [ConsumerInput.mk [4] 1, ConsumerInput.mk [3] 1]) ∧
    ((MapOutput.mk [ConsumerInput.mk [4] 1, ConsumerInput.mk [3] 1]).consumers_.length = 2 ∧
    (MapOutput.mk [ConsumerInput.mk [4] 1, ConsumerInput.mk [3] 1]).Close.consumers_.length = 2 ∧
    ∀ i, i < 2 → ∃ c,
      (MapOutput.mk [ConsumerInput.mk [4] 1, ConsumerInput.mk [3] 1]).consumers_[i]? = some c ∧
      (MapOutput.mk [ConsumerInput.mk [4] 1, ConsumerInput.mk [3] 1]).Close.consumers_[i]?
        = some (ConsumerInput.mk c.inputs_ (c.semaphore_ + 1)) ∧
      (∃ c1 c2, c.Close.consumeN c.inputs_.length
          = some (c.inputs_.reverse.map (fun v => (v, true)), c1) ∧
        c1.Consume = some ((default, false), c2)) ∧
      ∃ qf, (MapOutput.mk [ConsumerInput.mk [4] 1, ConsumerInput.mk [3] 1]).Close.drain i
        = some (c.inputs_.reverse, qf)) :=
  ⟨by decide,
    C12_Close_closes_every_lane (fun n : Nat => n) 2
      [QueueOp.emit 3, QueueOp.emit 4, QueueOp.emit 5, QueueOp.consume 1]
      (MapOutput.mk [ConsumerInput.mk [4] 1, ConsumerInput.mk [3] 1]) (by decide)⟩

/-- C13 (Consume result contract): on a lane with at least one signal,
`Consume` returns and takes exactly one signal; when the store is not empty it
returns `(v, true)` where `v` is the last stored value and the store loses
that one occurrence and nothing else; when the store is empty it returns
`(T(), false)` and the store stays empty. -/
theorem C13_Consume_contract {T : Type} [Inhabited T] (c : ConsumerInput T)
    (h : 1 ≤ c.semaphore_) :
    ∃ r c1, c.Consume = some (r, c1) ∧ c1.semaphore_ + 1 = c.semaphore_ ∧
      (c.inputs_ ≠ [] → r.2 = true ∧ r.1 ∈ c.inputs_ ∧ c.inputs_ = c1.inputs_ ++ [r.1]) ∧
      (c.inputs_ = [] → r = (default, false) ∧ c1.inputs_ = []) := by
  obtain ⟨r, c1, e1, e2, e3, e4⟩ := ConsumerInput.Consume_of_signal c h
  refine ⟨r, c1, e1, e2, ?_, e4⟩
  intro hne
  obtain ⟨ha, hb⟩ := e3 hne
  refine ⟨ha, ?_, hb⟩
  rw [hb]
  simp

theorem C13_Consume_contract_witness :
    1 ≤ (ConsumerInput.mk [4, 5, 4] 3).semaphore_ ∧
    ∃ r c1, (ConsumerInput.mk [4, 5, 4] 3).Consume = some (r, c1) ∧
      c1.semaphore_ + 1 = (ConsumerInput.mk [4, 5, 4] 3).semaphore_ ∧
      ((ConsumerInput.mk [4, 5, 4] 3).inputs_ ≠ [] →
        r.2 = true ∧ r.1 ∈ (ConsumerInput.mk [4, 5, 4] 3).inputs_ ∧
        (ConsumerInput.mk [4, 5, 4] 3).inputs_ = c1.inputs_ ++ [r.1]) ∧
      ((ConsumerInput.mk [4, 5, 4] 3).inputs_ = [] → r = (default, false) ∧ c1.inputs_ = []) :=
  ⟨by decide, C13_Consume_contract (ConsumerInput.mk [4, 5, 4] 3) (by decide)⟩

/-- C14 (no deadlock under correct shutdown): in every lane state reached from
a fresh lane by `Emit` and returning `Consume` steps only, `Consume` fails to
return exactly when the counter is zero, which is exactly when the store is
empty; and once `Close` is applied to such a state the next `Consume` returns:
the last pending value with `true`, or `(T(), false)` when nothing is
pending. -/
theorem C14_no_deadlock_after_Close {T : Type} [Inhabited T] (ops : List (LaneOp T))
    (t : LaneTrace T) (hops : ∀ op ∈ ops, op ≠ LaneOp.close)
    (h : LaneTrace.run ops LaneTrace.start = some t) :
    (t.lane.Consume = none ↔ t.lane.semaphore_ = 0) ∧
    (t.lane.semaphore_ = 0 ↔ t.lane.inputs_ = []) ∧
    ∃ r c1, t.lane.Close.Consume = some (r, c1) ∧ c1.semaphore_ = t.lane.semaphore_ ∧
      (t.lane.inputs_ = [] → r = (default, false)) ∧
      (t.lane.inputs_ ≠ [] → r.2 = true ∧ t.lane.inputs_ = c1.inputs_ ++ [r.1]) := by
  obtain ⟨h1, h2⟩ := LaneTrace.run_inv ops LaneTrace.start t h
    (by simp [LaneTrace.start, ConsumerInput.new])
    (by simp [LaneTrace.start, ConsumerInput.new])
  have h3 : t.closeCalls = 0 := LaneTrace.run_closeCalls ops LaneTrace.start t h hops
  have hsl : t.lane.semaphore_ = t.lane.inputs_.length := by omega
  refine ⟨?_, ?_, ?_⟩
  · constructor
    · intro hn
      by_contra h0
      unfold ConsumerInput.Consume at hn
      split_ifs at hn
    · exact ConsumerInput.Consume_blocked t.lane
  · rw [hsl]
    exact List.length_eq_zero
  · obtain ⟨r, c1, e1, e2, e3, e4⟩ :=
      ConsumerInput.Consume_of_signal t.lane.Close (by simp [ConsumerInput.Close])
    refine ⟨r, c1, e1, ?_, ?_, ?_⟩
    · simp only [ConsumerInput.Close] at e2
      omega
    · intro he
      exact (e4 he).1
    · intro hne
      exact e3 hne

theorem C14_no_deadlock_after_Close_witness :
    (∀ op ∈ [LaneOp.emit 1, LaneOp.emit 2, LaneOp.consume], op ≠ (LaneOp.close : LaneOp Nat)) ∧
    LaneTrace.run [LaneOp.emit 1, LaneOp.emit 2, LaneOp.consume] LaneTrace.start
      = some (LaneTrace.mk (ConsumerInput.mk [1] 1) 0 0) ∧
    (((LaneTrace.mk (ConsumerInput.mk [1] 1) 0 0).lane.Consume = none
        ↔ (LaneTrace.mk (ConsumerInput.mk [1] 1) 0 0).lane.semaphore_ = 0) ∧
    ((LaneTrace.mk (ConsumerInput.mk [1] 1) 0 0).lane.semaphore_ = 0
        ↔ (LaneTrace.mk (ConsumerInput.mk [1] 1) 0 0).lane.inputs_ = []) ∧
    ∃ r c1, (LaneTrace.mk (ConsumerInput.mk [1] 1) 0 0).lane.Close.Consume = some (r, c1) ∧
      c1.semaphore_ = (LaneTrace.mk (ConsumerInput.mk [1] 1) 0 0).lane.semaphore_ ∧
      ((LaneTrace.mk (ConsumerInput.mk [1] 1) 0 0).lane.inputs_ = [] → r = (default, false)) ∧
      ((LaneTrace.mk (ConsumerInput.mk [1] 1) 0 0).lane.inputs_ ≠ [] →
        r.2 = true ∧ (LaneTrace.mk (ConsumerInput.mk [1] 1) 0 0).lane.inputs_
          = c1.inputs_ ++ [r.1])) :=
  ⟨by decide, by decide,
    C14_no_deadlock_after_Close [LaneOp.emit 1, LaneOp.emit 2, LaneOp.consume]
      (LaneTrace.mk (ConsumerInput.mk [1] 1) 0 0) (by decide) (by decide)⟩

/-- C15 (concurrent-producer safety): `P` producer threads run their `Emit`
calls on a fresh queue of `N >= 1` lanes, their lock, push, unlock and release
operations interleaved in any order. Every interleaving can be continued until
all threads have returned; and once all threads are joined and `Close` is
called, the consumer loops of the lanes all end and return together exactly
the emitted values: the same multiset, so no value is missing, none appears
twice when the emitted values are distinct, and there are `P * m` of them when
each thread emits `m`. -/
theorem C15_concurrent_producer_safety {T : Type} [Inhabited T] (hash : T → Nat) (N : Nat)
    (hN : 1 ≤ N) (values : List (List T)) (schedule : List Nat) (st : Concurrent T)
    (hrun : Concurrent.run hash schedule (Concurrent.init N values) = some st) :
    (∃ more final, Concurrent.run hash more st = some final ∧ final.joined) ∧
    (st.joined →
      ∃ results qf, st.queue.Close.drainLanes (List.range N) = some (results, qf) ∧
        Multiset.ofList results.flatten = Multiset.ofList values.flatten ∧
        (values.flatten.Nodup → results.flatten.Nodup) ∧
        ∀ m, (∀ vs ∈ values, vs.length = m) →
          results.flatten.length = values.length * m) := by
  have hinv := Concurrent.run_keeps_Inv hash N (Multiset.ofList values.flatten) schedule
    (Concurrent.init N values) st hrun (Concurrent.init_Inv hash N values)
  constructor
  · have hheld : Concurrent.Held hash st := by
      have key : ∀ (s : List Nat) (a b : Concurrent T), Concurrent.run hash s a = some b →
          Concurrent.Held hash a → Concurrent.Held hash b := by
        intro s
        induction s with
        | nil =>
          intro a b h ha
          simp only [Concurrent.run, Option.some.injEq] at h
          subst h
          exact ha
        | cons p rest ih =>
          intro a b h ha
          simp only [Concurrent.run] at h
          cases hs : a.step hash p with
          | none => simp [hs] at h
          | some a1 =>
            simp only [hs] at h
            exact ih a1 b h (Concurrent.step_Held hash a a1 p hs ha)
      exact key schedule _ st hrun (Concurrent.init_Held hash N values)
    exact Concurrent.progress hash _ st rfl (by rw [hinv.1]; exact hN)
      (by rw [hinv.2.1, hinv.1]) hheld
  · intro hj
    obtain ⟨hlen, hs, hsum⟩ := Concurrent.joined_Inv hash N _ st hinv hj
    obtain ⟨qf, hd⟩ := drainLanes_all st.queue N hlen hs
    have hms : Multiset.ofList (st.queue.consumers_.map (fun c => c.inputs_.reverse)).flatten
        = Multiset.ofList values.flatten := by
      rw [coe_flatten_reverse, hsum]
    have hperm := Multiset.coe_eq_coe.mp hms
    refine ⟨_, qf, hd, hms, ?_, ?_⟩
    · intro hnd
      exact hperm.nodup_iff.mpr hnd
    · intro m hm
      rw [hperm.length_eq, List.length_flatten, sum_length_const values m hm]

theorem C15_concurrent_producer_safety_witness :
    1 ≤ 2 ∧
    Concurrent.run (fun n : Nat => n) [0, 1, 0, 1, 0, 1, 0, 1, 0, 1, 0, 1, 0, 1, 0, 1]
        (Concurrent.init 2 [[1, 2], [4, 3]])
      = some (Concurrent.mk
          (MapOutput.mk [ConsumerInput.mk [4, 2] 2, ConsumerInput.mk [1, 3] 2])
          [false, false]
          [Producer.mk [] EmitPc.atLock, Producer.mk [] EmitPc.atLock]) ∧
    (Concurrent.mk
        (MapOutput.mk [ConsumerInput.mk [4, 2] 2, ConsumerInput.mk [1, 3] 2])
        [false, false]
        [Producer.mk [] EmitPc.atLock, Producer.mk [] EmitPc.atLock]).joined ∧
    ((∃ more final, Concurrent.run (fun n : Nat => n) more
          (Concurrent.mk
            (MapOutput.mk [ConsumerInput.mk [4, 2] 2, ConsumerInput.mk [1, 3] 2])
            [false, false]
            [Producer.mk [] EmitPc.atLock, Producer.mk [] EmitPc.atLock]) = some final ∧
        final.joined) ∧
      ((Concurrent.mk
          (MapOutput.mk [ConsumerInput.mk [4, 2] 2, ConsumerInput.mk [1, 3] 2])
          [false, false]
          [Producer.mk [] EmitPc.atLock, Producer.mk [] EmitPc.atLock]).joined →
        ∃ results qf,
          (Concurrent.mk
            (MapOutput.mk [ConsumerInput.mk [4, 2] 2, ConsumerInput.mk [1, 3] 2])
            [false, false]
            [Producer.mk [] EmitPc.atLock, Producer.mk [] EmitPc.atLock]).queue.Close.drainLanes
              (List.range 2) = some (results, qf) ∧
          Multiset.ofList results.flatten = Multiset.ofList [[1, 2], [4, 3]].flatten ∧
          ([[1, 2], [4, 3]].flatten.Nodup → results.flatten.Nodup) ∧
          ∀ m, (∀ vs ∈ [[1, 2], [4, 3]], vs.length = m) →
            results.flatten.length = [[1, 2], [4, 3]].length * m)) :=
  ⟨by decide, by decide, by decide,
    C15_concurrent_producer_safety (fun n : Nat => n) 2 (by decide) [[1, 2], [4, 3]]
      [0, 1, 0, 1, 0, 1, 0, 1, 0, 1, 0, 1, 0, 1, 0, 1]
      (Concurrent.mk
        (MapOutput.mk [ConsumerInput.mk [4, 2] 2, ConsumerInput.mk [1, 3] 2])
        [false, false]
        [Producer.mk [] EmitPc.atLock, Producer.mk [] EmitPc.atLock])
      (by decide)⟩

/-- C16 (stack delivery order): `Emit` puts the value at the end of the store,
and a `Consume` that returns `(v, true)` takes `v` from the end and leaves the
rest in place, so it returns the most recently emitted value still pending;
values `v1, ..., vk` emitted to a lane come back from the next `k` `Consume`
calls as `vk, ..., v1`, on a fresh lane in particular. -/
theorem C16_stack_delivery_order {T : Type} [Inhabited T] (c : ConsumerInput T)
    (vs : List T) (v : T) :
    (c.Emit v).inputs_ = c.inputs_ ++ [v] ∧
    (∀ (r : T) (c1 : ConsumerInput T), c.Consume = some ((r, true), c1) →
      c.inputs_ = c1.inputs_ ++ [r]) ∧
    (vs.foldl ConsumerInput.Emit c).consumeN vs.length
      = some (vs.reverse.map (fun x => (x, true)), c) ∧
    (vs.foldl ConsumerInput.Emit ConsumerInput.new).consumeN vs.length
      = some (vs.reverse.map (fun x => (x, true)), ConsumerInput.new) := by
  have key : ∀ d : ConsumerInput T, (vs.foldl ConsumerInput.Emit d).consumeN vs.length
      = some (vs.reverse.map (fun x => (x, true)), d) := by
    intro d
    rw [ConsumerInput.foldl_Emit]
    exact ConsumerInput.consumeN_suffix vs d.inputs_ d.semaphore_
  refine ⟨rfl, ?_, key c, key ConsumerInput.new⟩
  intro r c1 h
  have hs : 1 ≤ c.semaphore_ := by
    by_contra h0
    rw [ConsumerInput.Consume_blocked c (by omega)] at h
    exact Option.noConfusion h
  obtain ⟨r1, c2, e1, -, e3, e4⟩ := ConsumerInput.Consume_of_signal c hs
  rw [h] at e1
  simp only [Option.some.injEq, Prod.mk.injEq] at e1
  obtain ⟨hr, hc⟩ := e1
  subst hr hc
  by_cases he : c.inputs_ = []
  · have := (e4 he).1
    simp at this
  · exact (e3 he).2

theorem C16_stack_delivery_order_witness :
    ((ConsumerInput.mk [8] 1).Emit 9).inputs_ = (ConsumerInput.mk [8] 1).inputs_ ++ [9] ∧
    (∀ (r : Nat) (c1 : ConsumerInput Nat), (ConsumerInput.mk [8] 1).Consume = some ((r, true), c1) →
      (ConsumerInput.mk [8] 1).inputs_ = c1.inputs_ ++ [r]) ∧
    ([1, 2, 3].foldl ConsumerInput.Emit (ConsumerInput.mk [8] 1)).consumeN [1, 2, 3].length
      = some ([1, 2, 3].reverse.map (fun x => (x, true)), ConsumerInput.mk [8] 1) ∧
    ([1, 2, 3].foldl ConsumerInput.Emit ConsumerInput.new).consumeN [1, 2, 3].length
      = some ([1, 2, 3].reverse.map (fun x => (x, true)), ConsumerInput.new) :=
  C16_stack_delivery_order (ConsumerInput.mk [8] 1) [1, 2, 3] 9

/-- C17 (emission-order independence): for `N >= 1` lanes, a sequence of
strings and any permutation of it give the same output of `Reduce` at the end
of the pipeline, and both runs return; likewise counts emitted to the
one-lane output queue in any two orders give the same output of `Reduce`,
also when the `int` sum wraps around. -/
theorem C17_emission_order_independence (hashString : String → Nat) (hashInt : Int → Nat)
    (N : Nat) (hN : 1 ≤ N) (lines lines1 : List String) (hp : lines.Perm lines1)
    (counts counts1 : List Int) (hc : counts.Perm counts1) :
    (∃ reducer_output, pipeline hashString hashInt N lines = some reducer_output ∧
      pipeline hashString hashInt N lines1 = some reducer_output) ∧
    ∃ map_output map_output1 input1 input2 reducer_output,
      (MapOutput.new 1).emitAll hashInt counts = some map_output ∧
      (MapOutput.new 1).emitAll hashInt counts1 = some map_output1 ∧
      Reduce map_output.Close = some (input1, reducer_output) ∧
      Reduce map_output1.Close = some (input2, reducer_output) := by
  constructor
  · refine ⟨wrapInt (lines.toFinset.card : Int), ?_, ?_⟩
    · exact pipeline_wraps hashString hashInt N hN lines
    · rw [pipeline_wraps hashString hashInt N hN lines1, List.toFinset_eq_of_perm _ _ hp]
  · obtain ⟨m, i1, h1, h2⟩ := Reduce_after_counts hashInt counts
    obtain ⟨m1, i2, h3, h4⟩ := Reduce_after_counts hashInt counts1
    rw [← hc.sum_eq] at h4
    exact ⟨m, m1, i1, i2, wrapInt counts.sum, h1, h3, h2, h4⟩

theorem C17_emission_order_independence_witness :
    1 ≤ 2 ∧ ["a", "b", "a", "c"].Perm ["c", "a", "a", "b"] ∧
    ([2147483647, 1] : List Int).Perm [1, 2147483647] ∧
    Reduce (MapOutput.mk [ConsumerInput.mk [2147483647, 1] 3])
      = some (MapOutput.mk [ConsumerInput.mk [] 0], -2147483648) ∧
    Reduce (MapOutput.mk [ConsumerInput.mk [1, 2147483647] 3])
      = some (MapOutput.mk [ConsumerInput.mk [] 0], -2147483648) ∧
    ((∃ reducer_output,
        pipeline (fun s : String => (s.get 0).toNat) (fun i : Int => i.toNat) 2
          ["a", "b", "a", "c"] = some reducer_output ∧
        pipeline (fun s : String => (s.get 0).toNat) (fun i : Int => i.toNat) 2
          ["c", "a", "a", "b"] = some reducer_output) ∧
    ∃ map_output map_output1 input1 input2 reducer_output,
      (MapOutput.new 1).emitAll (fun i : Int => i.toNat) [2147483647, 1] = some map_output ∧
      (MapOutput.new 1).emitAll (fun i : Int => i.toNat) [1, 2147483647]
        = some map_output1 ∧
      Reduce map_output.Close = some (input1, reducer_output) ∧
      Reduce map_output1.Close = some (input2, reducer_output)) :=
  ⟨by decide, by decide, by decide, by decide, by decide,
    C17_emission_order_independence (fun s : String => (s.get 0).toNat)
      (fun i : Int => i.toNat) 2 (by decide) ["a", "b", "a", "c"] ["c", "a", "a", "b"]
      (by decide) [2147483647, 1] [1, 2147483647] (by decide)⟩

end MapReduce
